import Mathlib

/-!
Calendar-HTTP-Server: event store and scheduling service.

A shallow embedding of `internal/storage/memory.go` (the in-memory event
store), `internal/app/service.go` (the scheduling service) and the three
mutating handlers of `internal/httpapi/handlers.go`, followed by theorems
about them.

Modelling conventions

* A Go `map[K]V` is an association list without repeated keys, `GoMap K V`;
  the order of the list stands for one (arbitrary) iteration order of the Go
  map.  A missing key yields the zero value, which for a nested map is the
  empty (`nil`) map.
* `sort.Slice` is modelled by insertion sort with the comparison of the
  source; the theorems use only that the result is a sorted permutation.
* The day loop of `ListForRange` takes a bound `fuel` on its iterations and
  returns `none` when the bound is reached; the theorems show that it ends.
* A `time.Time` is the instant it denotes: an `Int` number of nanoseconds
  since 1970-01-01T00:00:00Z.  The location is dropped: every use of a time
  in the embedded code goes through `UTC()`, `Equal`, `Before` or an
  explicit `time.UTC`, none of which depends on the location.
* The proleptic Gregorian calendar of the Go `time` package is modelled by
  the usual era/day-of-era arithmetic (`civilFromDays`, `daysFromCivil`).
* `int64` user ids are `Int`; no arithmetic is performed on them.  The id
  counter is an `Int` wrapped into the `int64` range after each increment.
* Clock readings (`time.Now()`, `s.clock()`) are explicit arguments of the
  operation that takes them.
* A handler starts from the decoded request fields and returns the HTTP
  status with the service; the response body is not modelled.
-/

namespace Calendar

/-! ## Go maps -/

/-- Lookup of the first binding of a key in an association list. -/
def lookupKey {κ ν : Type} [DecidableEq κ] : List (κ × ν) → κ → Option ν
  | [], _ => none
  | (k', v) :: r, k => if k' = k then some v else lookupKey r k

/-- Removal of every binding of a key from an association list. -/
def removeKey {κ ν : Type} [DecidableEq κ] (l : List (κ × ν)) (k : κ) : List (κ × ν) :=
  l.filter (fun p => decide (p.1 ≠ k))

/-- A Go map: an association list without repeated keys.  The order of the
entries stands for one iteration order. -/
structure GoMap (κ ν : Type) where
  entries : List (κ × ν)
  nodup : (entries.map Prod.fst).Nodup

namespace GoMap

variable {κ ν : Type} [DecidableEq κ]

/-- The empty map (also the `nil` map, which reads the same). -/
def empty : GoMap κ ν := ⟨[], List.nodup_nil⟩

/-- Lookup `m[k]` with the comma-ok result as an `Option`. -/
def get (m : GoMap κ ν) (k : κ) : Option ν := lookupKey m.entries k

/-- The Go builtin `delete(m, k)`. -/
def delete (m : GoMap κ ν) (k : κ) : GoMap κ ν :=
  ⟨removeKey m.entries k, m.nodup.sublist ((List.filter_sublist m.entries).map Prod.fst)⟩

/-- The assignment `m[k] = v`. -/
def set (m : GoMap κ ν) (k : κ) (v : ν) : GoMap κ ν :=
  ⟨(k, v) :: removeKey m.entries k,
    List.nodup_cons.mpr ⟨by simp [removeKey, List.mem_map, List.mem_filter],
      m.nodup.sublist ((List.filter_sublist m.entries).map Prod.fst)⟩⟩

/-- The Go builtin `len(m)`. -/
def len (m : GoMap κ ν) : Nat := m.entries.length

/-- The keys in iteration order (`for k := range m`). -/
def keys (m : GoMap κ ν) : List κ := m.entries.map Prod.fst

/-- The stored values in iteration order. -/
def values (m : GoMap κ ν) : List ν := m.entries.map Prod.snd

end GoMap

/-! ## Time -/

/-! An instant (`time.Time`) is an `Int`: nanoseconds since the Unix epoch. -/

/-- Nanoseconds in `24 * time.Hour`. -/
def nsPerDay : Int := 86400000000000

/-- `t.UTC()`: the same instant (the location is not modelled). -/
def UTC (t : Int) : Int := t

/-- `t.Truncate(24 * time.Hour)`: round down to a multiple of 24h since the
zero time, which lies a whole number of days before the Unix epoch. -/
def Truncate24h (t : Int) : Int := t - t % nsPerDay

/-- `t.Equal(u)`. -/
def Time.Equal (t u : Int) : Bool := decide (t = u)

/-- `t.Before(u)`. -/
def Time.Before (t u : Int) : Bool := decide (t < u)

/-- The number of the UTC day containing `t` (day 0 is 1970-01-01). -/
def utcDay (t : Int) : Int := t / nsPerDay

/-- The time of day of `t` in UTC, in nanoseconds. -/
def utcClock (t : Int) : Int := t % nsPerDay

/-- A civil date of the proleptic Gregorian calendar. -/
structure Civil where
  year : Int
  month : Int
  day : Int
deriving DecidableEq, Repr

/-- Year, month and day of a day number (`t.Date()` in UTC). -/
def civilFromDays (z : Int) : Civil :=
  let z := z + 719468
  let era := z / 146097
  let doe := z - era * 146097
  let yoe := (doe - doe / 1460 + doe / 36524 - doe / 146096) / 365
  let doy := doe - (365 * yoe + yoe / 4 - yoe / 100)
  let mp := (5 * doy + 2) / 153
  let d := doy - (153 * mp + 2) / 5 + 1
  let m := if mp < 10 then mp + 3 else mp - 9
  { year := yoe + era * 400 + (if m ≤ 2 then 1 else 0), month := m, day := d }

/-- Day number of a civil date with month in 1..12; the day may lie outside
the month and is then counted on linearly, as `time.Date` does. -/
def daysFromCivil (y m d : Int) : Int :=
  let y := if m ≤ 2 then y - 1 else y
  let era := y / 400
  let yoe := y - era * 400
  let doy := (153 * (if m > 2 then m - 3 else m + 9) + 2) / 5 + d - 1
  let doe := yoe * 365 + yoe / 4 - yoe / 100 + doy
  era * 146097 + doe - 719468

/-- `time.Date(year, month, day, 0, 0, 0, 0, time.UTC)` plus a time of day
`clock` below 24h: the month is normalised into 1..12, overflowing into the
year, and the day is counted on from the first of that month. -/
def goDate (year month day clock : Int) : Int :=
  let m := month - 1
  let year := year + m / 12
  let month := m % 12 + 1
  daysFromCivil year month day * nsPerDay + clock

/-- `t.AddDate(years, months, days)` for a time in UTC. -/
def AddDate (t : Int) (years months days : Int) : Int :=
  let c := civilFromDays (utcDay t)
  goDate (c.year + years) (c.month + months) (c.day + days) (utcClock t)

/-- `int(t.Weekday())` in UTC: 0 is Sunday; 1970-01-01 was a Thursday. -/
def Weekday (t : Int) : Int := (utcDay t + 4) % 7

/-! ### Formatting -/

/-- The decimal digit `d % 10` as a character. -/
def digitChar (d : Nat) : Char := Char.ofNat (48 + d % 10)

/-- Decimal digits of `n`, most significant first; `fuel` bounds the count. -/
def natDigitsAux : Nat → Nat → List Char → List Char
  | 0, _, acc => acc
  | fuel + 1, n, acc =>
      if n < 10 then digitChar n :: acc
      else natDigitsAux fuel (n / 10) (digitChar n :: acc)

/-- Decimal digits of `n`, most significant first, at least one digit. -/
def natDigits (n : Nat) : List Char := natDigitsAux (n + 1) n []

/-- The `time` package's `appendInt(x, width)`: sign, zero padding to
`width` digits, decimal digits. -/
def appendInt (x : Int) (width : Nat) : List Char :=
  let ds := natDigits x.natAbs
  (if x < 0 then ['-'] else []) ++ List.replicate (width - ds.length) '0' ++ ds

/-- `t.Format("2006-01-02")` for a civil date. -/
def formatDate (c : Civil) : String :=
  String.mk (appendInt c.year 4 ++ '-' :: appendInt c.month 2 ++ '-' :: appendInt c.day 2)

/-- The storage package's `dateKey`: `t.UTC().Format("2006-01-02")`. -/
def dateKey (t : Int) : String := formatDate (civilFromDays (utcDay (UTC t)))

/-! ## Domain -/

/-- The `domain.Event` record. -/
structure Event where
  ID : String
  UserID : Int
  Date : Int
  Title : String
  Created : Int
  Updated : Int
deriving DecidableEq, Repr

/-- The zero value `domain.Event{}`. -/
def Event.zero : Event :=
  { ID := "", UserID := 0, Date := 0, Title := "", Created := 0, Updated := 0 }

/-- The errors of the store and the service. -/
inductive Err where
  | ErrNotFound
  | ErrDuplicate
  | idAlreadyExists
deriving DecidableEq, Repr

/-! ## The in-memory store -/

/-- A bucket of the secondary index: a set of event ids. -/
abbrev IDSet := GoMap String Unit

/-- The `Memory` store (the mutex is not modelled). -/
structure Memory where
  byID : GoMap String Event
  byUserDate : GoMap Int (GoMap String IDSet)

/-- `NewMemory()`. -/
def NewMemory : Memory := { byID := GoMap.empty, byUserDate := GoMap.empty }

/-- The read `idx[u]`, a `nil` map when `u` is missing. -/
def userDates (idx : GoMap Int (GoMap String IDSet)) (u : Int) : GoMap String IDSet :=
  (idx.get u).getD GoMap.empty

/-- The read `idx[u][dk]`, a `nil` map when either key is missing. -/
def bucket (idx : GoMap Int (GoMap String IDSet)) (u : Int) (dk : String) : IDSet :=
  ((userDates idx u).get dk).getD GoMap.empty

/-- The three index statements shared by `Create` and `Update`: make the
user's container and the date bucket when missing, then add the id. -/
def indexInsert (idx : GoMap Int (GoMap String IDSet)) (u : Int) (dk : String)
    (id : String) : GoMap Int (GoMap String IDSet) :=
  let idx1 := match idx.get u with
    | some _ => idx
    | none => idx.set u GoMap.empty
  let um := userDates idx1 u
  let um1 := match um.get dk with
    | some _ => um
    | none => um.set dk GoMap.empty
  let b := (um1.get dk).getD GoMap.empty
  idx1.set u (um1.set dk (b.set id ()))

/-- The statement `delete(idx[u][dk], id)`: a no-op on a `nil` bucket. -/
def indexDelete (idx : GoMap Int (GoMap String IDSet)) (u : Int) (dk : String)
    (id : String) : GoMap Int (GoMap String IDSet) :=
  match idx.get u with
  | none => idx
  | some um =>
    match um.get dk with
    | none => idx
    | some b => idx.set u (um.set dk (b.delete id))

/-- The statement `if len(idx[u][dk]) == 0 { delete(idx[u], dk) }`. -/
def pruneDate (idx : GoMap Int (GoMap String IDSet)) (u : Int) (dk : String) :
    GoMap Int (GoMap String IDSet) :=
  if (bucket idx u dk).len = 0 then
    match idx.get u with
    | none => idx
    | some um => idx.set u (um.delete dk)
  else idx

/-- The statement `if len(idx[u]) == 0 { delete(idx, u) }`. -/
def pruneUser (idx : GoMap Int (GoMap String IDSet)) (u : Int) :
    GoMap Int (GoMap String IDSet) :=
  if (userDates idx u).len = 0 then idx.delete u else idx

/-- `Memory.Create`. -/
def Memory.Create (m : Memory) (e : Event) : Except Err Event × Memory :=
  match m.byID.get e.ID with
  | some _ => (.error .idAlreadyExists, m)
  | none =>
    (.ok e, { byID := m.byID.set e.ID e,
              byUserDate := indexInsert m.byUserDate e.UserID (dateKey e.Date) e.ID })

/-- `Memory.Update`. -/
def Memory.Update (m : Memory) (e : Event) : Except Err Event × Memory :=
  match m.byID.get e.ID with
  | none => (.error .ErrNotFound, m)
  | some old =>
    let idx :=
      if old.UserID ≠ e.UserID ∨ ¬ (Time.Equal old.Date e.Date = true) then
        let oldDK := dateKey old.Date
        let i1 := indexDelete m.byUserDate old.UserID oldDK old.ID
        let i2 := pruneDate i1 old.UserID oldDK
        indexInsert i2 e.UserID (dateKey e.Date) e.ID
      else m.byUserDate
    (.ok e, { byID := m.byID.set e.ID e, byUserDate := idx })

/-- `Memory.Delete`. -/
def Memory.Delete (m : Memory) (id : String) : Except Err Unit × Memory :=
  match m.byID.get id with
  | none => (.error .ErrNotFound, m)
  | some e =>
    let dk := dateKey e.Date
    let i1 := indexDelete m.byUserDate e.UserID dk id
    let i2 := pruneDate i1 e.UserID dk
    let i3 := pruneUser i2 e.UserID
    (.ok (), { byID := m.byID.delete id, byUserDate := i3 })

/-- `Memory.GetByID`. -/
def Memory.GetByID (m : Memory) (id : String) : Except Err Event :=
  match m.byID.get id with
  | none => .error .ErrNotFound
  | some e => .ok e

/-- Membership of `id` in the index bucket `byUserDate[u][k]`. -/
def Memory.indexed (m : Memory) (u : Int) (k : String) (id : String) : Bool :=
  ((bucket m.byUserDate u k).get id).isSome

/-- A mutating call on the store. -/
inductive MemOp where
  | Create (e : Event)
  | Update (e : Event)
  | Delete (id : String)

/-- The store after a call, whether it succeeded or failed. -/
def Memory.apply (m : Memory) : MemOp → Memory
  | .Create e => (m.Create e).2
  | .Update e => (m.Update e).2
  | .Delete id => (m.Delete id).2

/-- The store after a sequence of calls. -/
def Memory.run (m : Memory) (ops : List MemOp) : Memory := ops.foldl Memory.apply m

/-- Every event is stored under its own id. -/
def Memory.Keyed (m : Memory) : Prop :=
  ∀ id e, m.byID.get id = some e → e.ID = id

/-- Index consistency: the index holds exactly the stored events, each under
its current user and date key. -/
def Memory.IndexConsistent (m : Memory) : Prop :=
  ∀ u k id, m.indexed u k id = true ↔
    ∃ e, m.byID.get id = some e ∧ e.UserID = u ∧ dateKey e.Date = k

/-- The Go library's `sort.Slice(xs, less)`, modelled by insertion sort: an
element is placed before the first one that is not less than it. -/
def sortSlice {α : Type} (less : α → α → Bool) (xs : List α) : List α :=
  xs.insertionSort (fun a b => less b a = false)

/-- The events appended by `for id := range ids { res = append(res, m.byID[id]) }`;
a missing id reads as the zero event. -/
def Memory.eventsOf (m : Memory) (ids : IDSet) : List Event :=
  ids.keys.map (fun id => (m.byID.get id).getD Event.zero)

/-- `Memory.ListForDate`. -/
def Memory.ListForDate (m : Memory) (userID : Int) (date : Int) : Except Err (List Event) :=
  let dk := dateKey date
  let ids := bucket m.byUserDate userID dk
  let res := m.eventsOf ids
  .ok (sortSlice (fun a b => Time.Before a.Created b.Created) res)

/-- The day loop of `Memory.ListForRange`, started at day `d` with `res`
collected so far; `none` when `fuel` iterations did not reach the end. -/
def Memory.rangeLoop (m : Memory) (userID : Int) (upto : Int) :
    Nat → Int → List Event → Option (List Event)
  | 0, _, _ => none
  | fuel + 1, d, res =>
    if Time.Before d (UTC upto) = true then
      m.rangeLoop userID upto fuel (AddDate d 0 0 1)
        (res ++ m.eventsOf (bucket m.byUserDate userID (dateKey d)))
    else some res

/-- The comparison of `Memory.ListForRange`: by `Date`, then by `Created`. -/
def lessDateCreated (a b : Event) : Bool :=
  if Time.Equal a.Date b.Date = true then Time.Before a.Created b.Created
  else Time.Before a.Date b.Date

/-- `Memory.ListForRange`, with a bound `fuel` on the iterations of the day
loop; `none` when the loop did not finish within the bound. -/
def Memory.ListForRange (fuel : Nat) (m : Memory) (userID : Int) (frm upto : Int) :
    Option (Except Err (List Event)) :=
  match m.rangeLoop userID upto fuel (UTC frm) [] with
  | none => none
  | some res => some (.ok (sortSlice lessDateCreated res))

/-- The scan of `Memory.ExistsByUserDateTitle` over the ids of a bucket. -/
def Memory.titleIn (m : Memory) (title : String) : List String → Bool
  | [] => false
  | id :: rest =>
    if ((m.byID.get id).getD Event.zero).Title = title then true
    else m.titleIn title rest

/-- `Memory.ExistsByUserDateTitle`. -/
def Memory.ExistsByUserDateTitle (m : Memory) (userID : Int) (date : Int)
    (title : String) : Except Err Bool :=
  let dk := dateKey date
  .ok (m.titleIn title (bucket m.byUserDate userID dk).keys)

/-! ## The scheduling service -/

/-- Wrap-around of `int64` arithmetic. -/
def wrapInt64 (n : Int) : Int := (n + 9223372036854775808) % 18446744073709551616 - 9223372036854775808

/-- The conversion `byte(x)` of an integer, as a character. -/
def byteChar (x : Int) : Char := Char.ofNat (x % 256).toNat

/-- The digit loop of `itoa`, writing the 20-byte buffer from its end; `fuel`
is the number of free bytes, which an `int64` never exhausts. -/
def itoaLoop : Nat → Int → List Char → List Char
  | 0, _, buf => buf
  | fuel + 1, n, buf =>
    let buf := byteChar (48 + Int.tmod n 10) :: buf
    let n := Int.tdiv n 10
    if n = 0 then buf else itoaLoop fuel n buf

/-- The service's `itoa`. -/
def itoa (n : Int) : String :=
  let neg := decide (n < 0)
  let n := if neg then wrapInt64 (-n) else n
  let buf := itoaLoop 20 n []
  String.mk (if neg then '-' :: buf else buf)

/-- `t.Format("20060102T150405Z")` for a time in UTC. -/
def formatStamp (t : Int) : String :=
  let c := civilFromDays (utcDay t)
  let s := utcClock t / 1000000000
  String.mk (appendInt c.year 4 ++ appendInt c.month 2 ++ appendInt c.day 2 ++
    'T' :: appendInt (s / 3600) 2 ++ appendInt (s / 60 % 60) 2 ++ appendInt (s % 60) 2 ++ ['Z'])

/-- The service with the package-level id `counter` it uses. -/
structure Service where
  repo : Memory
  counter : Int

/-- `NewService(NewMemory())` in a process whose id counter was seeded with `seed`. -/
def NewService (seed : Int) : Service := { repo := NewMemory, counter := seed }

/-- `newID`: increments the counter; `now` is the reading of `time.Now()`.
Returns the id and the new counter. -/
def newID (now : Int) (counter : Int) : String × Int :=
  let counter := wrapInt64 (counter + 1)
  (formatStamp (UTC now) ++ ":" ++ itoa counter, counter)

/-- `Service.CreateEvent`; `idNow` is the `time.Now()` read by `newID`,
`clk1` and `clk2` the two readings of `s.clock()`. -/
def Service.CreateEvent (s : Service) (idNow clk1 clk2 : Int) (userID : Int) (date : Int)
    (title : String) : Except Err Event × Service :=
  let date := Truncate24h (UTC date)
  match s.repo.ExistsByUserDateTitle userID date title with
  | .error err => (.error err, s)
  | .ok dup =>
    if dup = true then (.error .ErrDuplicate, s)
    else
      let (id, counter) := newID idNow s.counter
      let e : Event :=
        { ID := id, UserID := userID, Date := date, Title := title,
          Created := UTC clk1, Updated := UTC clk2 }
      let (r, repo) := s.repo.Create e
      (r, { repo := repo, counter := counter })

/-- `Service.UpdateEvent`; the optional arguments are the Go pointers,
`clk` the reading of `s.clock()`. -/
def Service.UpdateEvent (s : Service) (clk : Int) (id : String) (userID : Option Int)
    (date : Option Int) (title : Option String) : Except Err Event × Service :=
  match s.repo.GetByID id with
  | .error err => (.error err, s)
  | .ok existing =>
    let existing := match userID with
      | some u => { existing with UserID := u }
      | none => existing
    let existing := match date with
      | some d => { existing with Date := Truncate24h (UTC d) }
      | none => existing
    let existing := match title with
      | some t => { existing with Title := t }
      | none => existing
    let existing := { existing with Updated := UTC clk }
    let (r, repo) := s.repo.Update existing
    (r, { s with repo := repo })

/-- `Service.DeleteEvent`. -/
def Service.DeleteEvent (s : Service) (id : String) : Except Err Unit × Service :=
  let (r, repo) := s.repo.Delete id
  (r, { s with repo := repo })

/-- `Service.EventsForDay`. -/
def Service.EventsForDay (s : Service) (userID : Int) (date : Int) :
    Except Err (List Event) :=
  let date := Truncate24h (UTC date)
  s.repo.ListForDate userID date

/-- `Service.EventsForWeek`; `fuel` bounds the store's day loop. -/
def Service.EventsForWeek (fuel : Nat) (s : Service) (userID : Int) (date : Int) :
    Option (Except Err (List Event)) :=
  let date := Truncate24h (UTC date)
  let offset := (Weekday date + 6) % 7
  let monday := AddDate date 0 0 (-offset)
  let nextMonday := AddDate monday 0 0 7
  s.repo.ListForRange fuel userID monday nextMonday

/-- `Service.EventsForMonth`; `fuel` bounds the store's day loop. -/
def Service.EventsForMonth (fuel : Nat) (s : Service) (userID : Int) (date : Int) :
    Option (Except Err (List Event)) :=
  let date := Truncate24h (UTC date)
  let c := civilFromDays (utcDay date)
  let first := goDate c.year c.month 1 0
  let nextMonth := AddDate first 0 1 0
  s.repo.ListForRange fuel userID first nextMonth

/-- Leap years of the Gregorian calendar. -/
def isLeap (y : Int) : Bool := decide (y % 4 = 0 ∧ (y % 100 ≠ 0 ∨ y % 400 = 0))

/-- The number of days of month `m` (1..12) of year `y`. -/
def daysIn (y m : Int) : Int :=
  if m = 2 then (if isLeap y = true then 29 else 28)
  else if m = 4 ∨ m = 6 ∨ m = 9 ∨ m = 11 then 30 else 31

/-- The value of a decimal digit character. -/
def digitVal (c : Char) : Nat := c.toNat - 48

/-- The number read from a list of decimal digits. -/
def parseNat (cs : List Char) : Nat := cs.foldl (fun a c => 10 * a + digitVal c) 0

/-- The integer read from an optional minus sign and decimal digits. -/
def parseInt : List Char → Int
  | '-' :: r => -(parseNat r : Int)
  | r => (parseNat r : Int)

/-- The events collected by `n` iterations of the day loop of
`Memory.ListForRange` started at `d`. -/
def Memory.rangeCollect (m : Memory) (userID : Int) : Int → Nat → List Event
  | _, 0 => []
  | d, n + 1 =>
    m.eventsOf (bucket m.byUserDate userID (dateKey d)) ++
      m.rangeCollect userID (d + nsPerDay) n

/-- The number of days `d = frm, frm + 24h, ...` that lie before `upto`. -/
def dayCount (frm upto : Int) : Nat := ((upto - frm + nsPerDay - 1) / nsPerDay).toNat

/-- A mutating call on the service, with the clock readings it takes. -/
inductive SvcOp where
  | CreateEvent (idNow clk1 clk2 : Int) (userID : Int) (date : Int) (title : String)
  | UpdateEvent (clk : Int) (id : String) (userID : Option Int) (date : Option Int)
      (title : Option String)
  | DeleteEvent (id : String)

/-- The service after a call, whether it succeeded or failed. -/
def Service.apply (s : Service) : SvcOp → Service
  | .CreateEvent idNow clk1 clk2 userID date title =>
    (s.CreateEvent idNow clk1 clk2 userID date title).2
  | .UpdateEvent clk id userID date title => (s.UpdateEvent clk id userID date title).2
  | .DeleteEvent id => (s.DeleteEvent id).2

/-- The service after a sequence of calls. -/
def Service.run (s : Service) (ops : List SvcOp) : Service := ops.foldl Service.apply s

/-- The start of the week of `d`: the day of `d` moved back by
`(weekday + 6) mod 7` days. -/
def mondayOf (d : Int) : Int :=
  Truncate24h d - (Weekday (Truncate24h d) + 6) % 7 * nsPerDay

/-- The UTC year of an instant. -/
def yearOf (t : Int) : Int := (civilFromDays (utcDay t)).year

/-- The UTC month (1..12) of an instant. -/
def monthOf (t : Int) : Int := (civilFromDays (utcDay t)).month

/-- The id built by `newID` from the reading `now` and the incremented counter `c`. -/
def idOf (now : Int) (c : Int) : String := formatStamp (UTC now) ++ ":" ++ itoa c

/-- Every stored id was built by `newID` from a counter value above `lo` and
not above the current counter. -/
def Service.IdsBelow (lo : Int) (s : Service) : Prop :=
  lo ≤ s.counter ∧
    ∀ id, (s.repo.byID.get id).isSome = true →
      ∃ now c, lo < c ∧ c ≤ s.counter ∧ id = idOf now c

/-! ## Sample data -/

/-- Midnight UTC of 2025-10-08, a Wednesday. -/
def sampleDay : Int := 1759881600000000000

/-- A counter seed, as read from the clock at process start. -/
def sampleSeed : Int := 1700000000000000000

/-- The call `CreateEvent(1, 2025-10-08, "Meet")` with its clock readings. -/
def sampleCreate : SvcOp :=
  .CreateEvent (sampleDay + 5) (sampleDay + 6) (sampleDay + 7) 1 sampleDay "Meet"

/-- The event that `sampleCreate` stores in a fresh service. -/
def sampleEvent : Event :=
  { ID := "20251008T000000Z:1700000000000000001", UserID := 1, Date := sampleDay,
    Title := "Meet", Created := sampleDay + 6, Updated := sampleDay + 7 }

/-- The service after `sampleCreate`. -/
def sampleService : Service := (NewService sampleSeed).run [sampleCreate]

/-- Every stored date is a UTC midnight. -/
def Memory.Normalized (m : Memory) : Prop :=
  ∀ id e, m.byID.get id = some e → e.Date % nsPerDay = 0

/-- The ids returned by successive `newID` calls that read `nows` from
`time.Now()`, starting with the counter at `counter`. -/
def newIDs : Int → List Int → List String
  | _, [] => []
  | counter, now :: rest => (newID now counter).1 :: newIDs (newID now counter).2 rest

/-! ## Index without empty containers -/

/-- The index holds no empty container: no user with an empty date map and
no date key with an empty id set. -/
def NoEmpty (idx : GoMap Int (GoMap String IDSet)) : Prop :=
  ∀ p ∈ idx.entries, p.2.len ≠ 0 ∧ ∀ q ∈ p.2.entries, q.2.len ≠ 0

instance (idx : GoMap Int (GoMap String IDSet)) : Decidable (NoEmpty idx) := by
  unfold NoEmpty; infer_instance

/-! ## The HTTP handlers, from the decoded request fields on -/

/-- The Go library's `unicode.IsSpace`. -/
def goIsSpace (c : Char) : Bool :=
  let n := c.toNat
  (9 ≤ n && n ≤ 13) || n = 32 || n = 133 || n = 160 || n = 5760 ||
    (8192 ≤ n && n ≤ 8202) || n = 8232 || n = 8233 || n = 8239 || n = 8287 || n = 12288

/-- The test `strings.TrimSpace(s) == ""`: every character is white space. -/
def trimmedEmpty (s : String) : Bool := s.data.all goIsSpace

/-- The value of a non-empty run of ASCII decimal digits. -/
def digitsValue (cs : List Char) : Option Nat :=
  if cs ≠ [] ∧ cs.all (fun c => decide ('0' ≤ c ∧ c ≤ '9')) = true then some (parseNat cs)
  else none

/-- The Go library's `strconv.ParseInt(s, 10, 64)`: an optional sign, decimal
digits, and a value in the `int64` range. -/
def parseInt64 (s : String) : Option Int :=
  let signed : Bool × List Char := match s.data with
    | '+' :: r => (false, r)
    | '-' :: r => (true, r)
    | r => (false, r)
  match digitsValue signed.2 with
  | none => none
  | some n =>
    let v : Int := if signed.1 = true then -(n : Int) else (n : Int)
    if -9223372036854775808 ≤ v ∧ v < 9223372036854775808 then some v else none

/-- The handlers' `parseDate`, `time.Parse("2006-01-02", s)`: four digits of
year, two of month, two of day, a month in 1..12 and a day of that month;
the result is midnight UTC of that day. -/
def parseDate (s : String) : Option Int :=
  match s.data with
  | [y1, y2, y3, y4, '-', m1, m2, '-', d1, d2] =>
    match digitsValue [y1, y2, y3, y4], digitsValue [m1, m2], digitsValue [d1, d2] with
    | some y, some m, some d =>
      if 1 ≤ m ∧ m ≤ 12 ∧ 1 ≤ (d : Int) ∧ (d : Int) ≤ daysIn y m then
        some (goDate y m d 0)
      else none
    | _, _, _ => none
  | _ => none

/-- The decoded body of `POST /create_event`. -/
structure CreateReq where
  UserID : String
  Date : String
  Title : String

/-- The decoded body of `POST /update_event`; absent fields are `nil` pointers. -/
structure UpdateReq where
  ID : String
  UserID : Option String
  Date : Option String
  Title : Option String

/-- The decoded body of `POST /delete_event`. -/
structure DeleteReq where
  ID : String

/-- `Handlers.CreateEvent` after `parseBody`: the HTTP status and the service. -/
def Handlers.CreateEvent (s : Service) (idNow clk1 clk2 : Int) (req : CreateReq) :
    Nat × Service :=
  match parseInt64 req.UserID with
  | none => (400, s)
  | some uid =>
    match parseDate req.Date with
    | none => (400, s)
    | some d =>
      if trimmedEmpty req.Title = true then (400, s)
      else
        match s.CreateEvent idNow clk1 clk2 uid d req.Title with
        | (.error err, s') => (if err = .ErrDuplicate then 503 else 500, s')
        | (.ok _, s') => (200, s')

/-- `Handlers.UpdateEvent` after `parseBody`: the HTTP status and the service. -/
def Handlers.UpdateEvent (s : Service) (clk : Int) (req : UpdateReq) : Nat × Service :=
  if trimmedEmpty req.ID = true then (400, s)
  else
    let uid : Except Unit (Option Int) := match req.UserID with
      | none => .ok none
      | some str => match parseInt64 str with
        | none => .error ()
        | some u => .ok (some u)
    match uid with
    | .error _ => (400, s)
    | .ok uid =>
      let dt : Except Unit (Option Int) := match req.Date with
        | none => .ok none
        | some str => match parseDate str with
          | none => .error ()
          | some d => .ok (some d)
      match dt with
      | .error _ => (400, s)
      | .ok dt =>
        match s.UpdateEvent clk req.ID uid dt req.Title with
        | (.error err, s') => (if err = .ErrNotFound then 503 else 500, s')
        | (.ok _, s') => (200, s')

/-- `Handlers.DeleteEvent` after `parseBody`: the HTTP status and the service. -/
def Handlers.DeleteEvent (s : Service) (req : DeleteReq) : Nat × Service :=
  if trimmedEmpty req.ID = true then (400, s)
  else
    match s.DeleteEvent req.ID with
    | (.error err, s') => (if err = .ErrNotFound then 503 else 500, s')
    | (.ok _, s') => (200, s')

/-- A mutating request, with the clock readings its handling takes. -/
inductive HttpOp where
  | create_event (idNow clk1 clk2 : Int) (req : CreateReq)
  | update_event (clk : Int) (req : UpdateReq)
  | delete_event (req : DeleteReq)

/-- The service after a request was handled. -/
def Handlers.apply (s : Service) : HttpOp → Service
  | .create_event idNow clk1 clk2 req => (Handlers.CreateEvent s idNow clk1 clk2 req).2
  | .update_event clk req => (Handlers.UpdateEvent s clk req).2
  | .delete_event req => (Handlers.DeleteEvent s req).2

/-- The service after a sequence of requests. -/
def Handlers.run (s : Service) (ops : List HttpOp) : Service := ops.foldl Handlers.apply s

/-- The sample event moved to user 2. -/
def sampleMoved : Event := { sampleEvent with UserID := 2 }

/-- The request `create_event(user_id=1, date=2025-10-08, event=Meet)`. -/
def sampleCreateReq : CreateReq := { UserID := "1", Date := "2025-10-08", Title := "Meet" }

/-- The request `update_event(id=<the sample event>, event="")`. -/
def sampleEmptyTitleReq : UpdateReq :=
  { ID := sampleEvent.ID, UserID := none, Date := none, Title := some "" }

/-- The sample event after its title was set to the empty string at `sampleDay + 9`. -/
def sampleUntitled : Event := { sampleEvent with Title := "", Updated := sampleDay + 9 }

/-! # Theorems -/

theorem lookupKey_removeKey {κ ν : Type} [DecidableEq κ] (l : List (κ × ν)) (k k' : κ) :
    lookupKey (removeKey l k) k' = if k' = k then none else lookupKey l k' := by
  induction l with
  | nil => simp [removeKey, lookupKey]
  | cons p r ih =>
    obtain ⟨k₀, v⟩ := p
    unfold removeKey at ih ⊢
    by_cases h₀ : k₀ = k
    · subst h₀
      by_cases h : k' = k₀
      · subst h; simpa [List.filter_cons, lookupKey] using ih
      · have h' : ¬ k₀ = k' := fun e => h e.symm
        simpa [List.filter_cons, lookupKey, h, h'] using ih
    · by_cases h₁ : k₀ = k'
      · subst h₁
        simp [List.filter_cons, h₀, lookupKey]
      · simpa [List.filter_cons, h₀, lookupKey, h₁] using ih

theorem lookupKey_of_mem {κ ν : Type} [DecidableEq κ] {l : List (κ × ν)}
    (hl : (l.map Prod.fst).Nodup) {k : κ} {v : ν} (h : (k, v) ∈ l) :
    lookupKey l k = some v := by
  induction l with
  | nil => cases h
  | cons p r ih =>
    obtain ⟨k₀, v₀⟩ := p
    simp only [List.map_cons, List.nodup_cons] at hl
    rcases List.mem_cons.mp h with h | h
    · cases h; simp [lookupKey]
    · have : k₀ ≠ k := by
        rintro rfl
        exact hl.1 (List.mem_map.mpr ⟨(k₀, v), h, rfl⟩)
      simp [lookupKey, this, ih hl.2 h]

theorem mem_of_lookupKey {κ ν : Type} [DecidableEq κ] {l : List (κ × ν)} {k : κ} {v : ν}
    (h : lookupKey l k = some v) : (k, v) ∈ l := by
  induction l with
  | nil => cases h
  | cons p r ih =>
    obtain ⟨k₀, v₀⟩ := p
    unfold lookupKey at h
    split at h
    · rename_i hk; cases h; subst hk; exact List.mem_cons_self _ _
    · exact List.mem_cons_of_mem _ (ih h)

namespace GoMap
variable {κ ν : Type} [DecidableEq κ]

theorem get_empty (k : κ) : get (empty : GoMap κ ν) k = none := rfl

theorem get_delete (m : GoMap κ ν) (k k' : κ) :
    get (delete m k) k' = if k' = k then none else get m k' :=
  lookupKey_removeKey m.entries k k'

theorem get_set (m : GoMap κ ν) (k k' : κ) (v : ν) :
    get (set m k v) k' = if k' = k then some v else get m k' := by
  unfold get set
  by_cases h : k' = k
  · subst h; simp [lookupKey]
  · have h' : ¬ k = k' := fun e => h e.symm
    simp [lookupKey, h, h', lookupKey_removeKey]

theorem get_delete_self (m : GoMap κ ν) (k : κ) : get (delete m k) k = none := by
  simp [get_delete]

theorem get_delete_ne (m : GoMap κ ν) {k k' : κ} (h : k' ≠ k) :
    get (delete m k) k' = get m k' := by
  simp [get_delete, h]

theorem get_set_self (m : GoMap κ ν) (k : κ) (v : ν) : get (set m k v) k = some v := by
  simp [get_set]

theorem get_set_ne (m : GoMap κ ν) {k k' : κ} (v : ν) (h : k' ≠ k) :
    get (set m k v) k' = get m k' := by
  simp [get_set, h]

theorem delete_empty (k : κ) : delete (empty : GoMap κ ν) k = empty := rfl

omit [DecidableEq κ] in
theorem eq_empty_of_len (m : GoMap κ ν) (h : len m = 0) : m = empty := by
  obtain ⟨l, hl⟩ := m
  have : l = [] := List.length_eq_zero.mp h
  subst this
  rfl

theorem get_eq_some_iff (m : GoMap κ ν) (k : κ) (v : ν) :
    get m k = some v ↔ (k, v) ∈ m.entries :=
  ⟨mem_of_lookupKey, lookupKey_of_mem m.nodup⟩

theorem mem_keys_iff (m : GoMap κ ν) (k : κ) : k ∈ m.keys ↔ (get m k).isSome = true := by
  unfold keys
  constructor
  · intro h
    obtain ⟨⟨k', v⟩, hp, rfl⟩ := List.mem_map.mp h
    rw [(get_eq_some_iff m k' v).mpr hp]; rfl
  · intro h
    obtain ⟨v, hv⟩ := Option.isSome_iff_exists.mp h
    exact List.mem_map.mpr ⟨(k, v), (get_eq_some_iff m k v).mp hv, rfl⟩

end GoMap

theorem userDates_set (idx : GoMap Int (GoMap String IDSet)) (u u' : Int)
    (um : GoMap String IDSet) :
    userDates (idx.set u um) u' = if u' = u then um else userDates idx u' := by
  unfold userDates
  rw [GoMap.get_set]
  split <;> rfl

theorem userDates_delete (idx : GoMap Int (GoMap String IDSet)) (u u' : Int) :
    userDates (idx.delete u) u' = if u' = u then GoMap.empty else userDates idx u' := by
  unfold userDates
  rw [GoMap.get_delete]
  split <;> rfl

theorem userDates_of_get {idx : GoMap Int (GoMap String IDSet)} {u : Int}
    {um : GoMap String IDSet} (h : idx.get u = some um) : userDates idx u = um := by
  simp [userDates, h]

theorem bucket_def (idx : GoMap Int (GoMap String IDSet)) (u : Int) (dk : String) :
    bucket idx u dk = ((userDates idx u).get dk).getD GoMap.empty := rfl

/-- Buckets after `indexInsert`. -/
theorem bucket_indexInsert (idx : GoMap Int (GoMap String IDSet)) (u u' : Int)
    (dk dk' id : String) :
    bucket (indexInsert idx u dk id) u' dk' =
      if u' = u ∧ dk' = dk then (bucket idx u dk).set id () else bucket idx u' dk' := by
  unfold indexInsert
  simp only [bucket_def, userDates_set]
  by_cases hu : u' = u
  · subst hu
    by_cases hk : dk' = dk
    · subst hk
      simp only [true_and, if_true, GoMap.get_set_self, Option.getD_some]
      cases h1 : idx.get u' with
      | none =>
        simp [userDates_set, GoMap.get_set_self, GoMap.get_empty, userDates, h1]
      | some um =>
        simp only [userDates_of_get h1]
        cases h2 : um.get dk' with
        | none => simp [GoMap.get_set_self]
        | some b => simp [h2]
    · simp only [hk, and_false, if_false, if_true, GoMap.get_set_ne _ _ hk]
      cases h1 : idx.get u' with
      | none =>
        simp [userDates_set, GoMap.get_empty, userDates, h1, GoMap.get_set_self,
          GoMap.get_set_ne _ _ hk]
      | some um =>
        simp only [userDates_of_get h1]
        cases h2 : um.get dk with
        | none => simp [GoMap.get_set_ne _ _ hk]
        | some b => simp
  · simp only [hu, false_and, if_false]
    cases h1 : idx.get u with
    | none => simp [userDates_set, hu]
    | some um => simp

/-- Buckets after `indexDelete`. -/
theorem bucket_indexDelete (idx : GoMap Int (GoMap String IDSet)) (u u' : Int)
    (dk dk' id : String) :
    bucket (indexDelete idx u dk id) u' dk' =
      if u' = u ∧ dk' = dk then (bucket idx u dk).delete id else bucket idx u' dk' := by
  unfold indexDelete
  cases h1 : idx.get u with
  | none =>
    by_cases hc : u' = u ∧ dk' = dk
    · obtain ⟨rfl, rfl⟩ := hc
      simp [bucket_def, userDates, h1, GoMap.get_empty, GoMap.delete_empty]
    · simp [hc]
  | some um =>
    dsimp only
    cases h2 : um.get dk with
    | none =>
      dsimp only
      by_cases hc : u' = u ∧ dk' = dk
      · obtain ⟨rfl, rfl⟩ := hc
        simp [bucket_def, userDates, h1, h2, GoMap.delete_empty]
      · simp [hc]
    | some b =>
      dsimp only
      simp only [bucket_def, userDates_set]
      by_cases hu : u' = u
      · subst hu
        by_cases hk : dk' = dk
        · subst hk
          simp [GoMap.get_set_self, userDates, h1, h2]
        · simp [hk, GoMap.get_set_ne _ _ hk, userDates, h1]
      · simp [hu]

/-- Pruning an empty date bucket changes no bucket. -/
theorem bucket_pruneDate (idx : GoMap Int (GoMap String IDSet)) (u u' : Int)
    (dk dk' : String) :
    bucket (pruneDate idx u dk) u' dk' = bucket idx u' dk' := by
  unfold pruneDate
  split
  · rename_i hlen
    have hb := GoMap.eq_empty_of_len _ hlen
    cases h1 : idx.get u with
    | none => rfl
    | some um =>
      simp only [bucket_def, userDates_set]
      by_cases hu : u' = u
      · subst hu
        simp only [if_true, GoMap.get_delete]
        by_cases hk : dk' = dk
        · subst hk
          simp only [if_true]
          rw [bucket_def, userDates_of_get h1] at hb
          simp [userDates_of_get h1, hb]
        · simp [hk, userDates_of_get h1]
      · simp [hu]
  · rfl

/-- Pruning an empty user container changes no bucket. -/
theorem bucket_pruneUser (idx : GoMap Int (GoMap String IDSet)) (u u' : Int)
    (dk' : String) :
    bucket (pruneUser idx u) u' dk' = bucket idx u' dk' := by
  unfold pruneUser
  split
  · rename_i hlen
    have hb := GoMap.eq_empty_of_len _ hlen
    simp only [bucket_def, userDates_delete]
    by_cases hu : u' = u
    · subst hu
      simp [hb, GoMap.get_empty]
    · simp [hu]
  · rfl

theorem indexed_iff (m : Memory) (u : Int) (k id : String) :
    m.indexed u k id = true ↔ (bucket m.byUserDate u k).get id = some () := by
  unfold Memory.indexed
  cases (bucket m.byUserDate u k).get id <;> simp

theorem Keyed_new : NewMemory.Keyed := by
  intro id e h; simp [NewMemory, GoMap.get_empty] at h

theorem IndexConsistent_new : NewMemory.IndexConsistent := by
  intro u k id
  simp [Memory.indexed, NewMemory, bucket, userDates, GoMap.get_empty]

theorem Keyed_Create (m : Memory) (e : Event) (h : m.Keyed) : (m.Create e).2.Keyed := by
  unfold Memory.Create
  cases hg : m.byID.get e.ID with
  | some x => exact h
  | none =>
    intro id x hx
    simp only [GoMap.get_set] at hx
    split at hx
    · rename_i hid; cases hx; exact hid.symm
    · exact h id x hx

theorem Keyed_Update (m : Memory) (e : Event) (h : m.Keyed) : (m.Update e).2.Keyed := by
  unfold Memory.Update
  cases hg : m.byID.get e.ID with
  | none => exact h
  | some old =>
    intro id x hx
    simp only [GoMap.get_set] at hx
    split at hx
    · rename_i hid; cases hx; exact hid.symm
    · exact h id x hx

theorem Keyed_Delete (m : Memory) (id : String) (h : m.Keyed) : (m.Delete id).2.Keyed := by
  unfold Memory.Delete
  cases hg : m.byID.get id with
  | none => exact h
  | some old =>
    intro id' x hx
    simp only [GoMap.get_delete] at hx
    split at hx
    · cases hx
    · exact h id' x hx

theorem IndexConsistent_Create (m : Memory) (e : Event) (h : m.IndexConsistent) :
    (m.Create e).2.IndexConsistent := by
  unfold Memory.Create
  cases hg : m.byID.get e.ID with
  | some x => exact h
  | none =>
    intro u k id
    have h0 := h u k id
    rw [indexed_iff] at h0 ⊢
    simp only [bucket_indexInsert, GoMap.get_set]
    by_cases hid : id = e.ID
    · subst hid
      have hno : ¬ ((bucket m.byUserDate u k).get e.ID = some ()) := by
        rw [h0, hg]; simp
      by_cases hc : u = e.UserID ∧ k = dateKey e.Date
      · obtain ⟨rfl, rfl⟩ := hc
        simp [GoMap.get_set_self]
      · simp only [hc, if_false, if_true]
        constructor
        · intro hb; exact absurd hb hno
        · rintro ⟨x, hx, hu, hk⟩
          cases hx
          exact absurd ⟨hu.symm, hk.symm⟩ hc
    · simp only [hid, if_false]
      rw [← h0]
      split
      · rename_i hc
        obtain ⟨rfl, rfl⟩ := hc
        rw [GoMap.get_set_ne _ _ hid]
      · rfl

theorem IndexConsistent_Update (m : Memory) (e : Event) (hk : m.Keyed)
    (h : m.IndexConsistent) : (m.Update e).2.IndexConsistent := by
  unfold Memory.Update
  cases hg : m.byID.get e.ID with
  | none => exact h
  | some old =>
    have hold : old.ID = e.ID := hk _ _ hg
    intro u k id
    have h0 := h u k id
    rw [indexed_iff] at h0 ⊢
    dsimp only
    split
    · -- the index is rewritten
      simp only [bucket_indexInsert, bucket_pruneDate, bucket_indexDelete, GoMap.get_set, hold]
      by_cases hid : id = e.ID
      · subst hid
        simp only [if_true]
        by_cases hc : u = e.UserID ∧ k = dateKey e.Date
        · obtain ⟨rfl, rfl⟩ := hc
          simp [GoMap.get_set_self]
        · simp only [hc, if_false]
          constructor
          · intro hb
            exfalso
            split at hb
            · simp [GoMap.get_delete_self] at hb
            · rename_i hc2
              rw [h0, hg] at hb
              obtain ⟨x, hx, hu, hk2⟩ := hb
              cases hx
              exact hc2 ⟨hu.symm, hk2.symm⟩
          · rintro ⟨x, hx, hu, hk2⟩
            cases hx
            exact absurd ⟨hu.symm, hk2.symm⟩ hc
      · simp only [hid, if_false]
        rw [← h0]
        split
        · rename_i hc
          obtain ⟨rfl, rfl⟩ := hc
          rw [GoMap.get_set_ne _ _ hid]
          split
          · rename_i hc2
            rw [← hc2.1, ← hc2.2, GoMap.get_delete_ne _ hid]
          · rfl
        · split
          · rename_i hc2
            obtain ⟨rfl, rfl⟩ := hc2
            rw [GoMap.get_delete_ne _ hid]
          · rfl
    · -- user and date are unchanged
      rename_i hsame
      have hsame' : old.UserID = e.UserID ∧ old.Date = e.Date := by
        by_contra hne
        apply hsame
        by_cases hu : old.UserID = e.UserID
        · right
          simp only [Time.Equal, decide_eq_true_eq]
          exact fun hd => hne ⟨hu, hd⟩
        · left; exact hu
      simp only [GoMap.get_set]
      by_cases hid : id = e.ID
      · subst hid
        simp only [if_true]
        rw [h0, hg]
        constructor
        · rintro ⟨x, hx, hu, hk2⟩
          cases hx
          exact ⟨e, rfl, hsame'.1 ▸ hu, hsame'.2 ▸ hk2⟩
        · rintro ⟨x, hx, hu, hk2⟩
          cases hx
          exact ⟨old, rfl, hsame'.1.symm ▸ hu, hsame'.2.symm ▸ hk2⟩
      · simp only [hid, if_false]
        exact h0

theorem IndexConsistent_Delete (m : Memory) (id : String) (h : m.IndexConsistent) :
    (m.Delete id).2.IndexConsistent := by
  unfold Memory.Delete
  cases hg : m.byID.get id with
  | none => exact h
  | some old =>
    intro u k id'
    have h0 := h u k id'
    rw [indexed_iff] at h0 ⊢
    simp only [bucket_pruneUser, bucket_pruneDate, bucket_indexDelete, GoMap.get_delete]
    by_cases hid : id' = id
    · subst hid
      simp only [if_true]
      constructor
      · intro hb
        exfalso
        split at hb
        · simp [GoMap.get_delete_self] at hb
        · rename_i hc
          rw [h0, hg] at hb
          obtain ⟨x, hx, hu, hk2⟩ := hb
          cases hx
          exact hc ⟨hu.symm, hk2.symm⟩
      · rintro ⟨x, hx, _⟩
        cases hx
    · simp only [hid, if_false]
      rw [← h0]
      split
      · rename_i hc
        obtain ⟨rfl, rfl⟩ := hc
        rw [GoMap.get_delete_ne _ hid]
      · rfl

theorem run_invariant (ops : List MemOp) (m : Memory) (hk : m.Keyed)
    (hi : m.IndexConsistent) : (m.run ops).Keyed ∧ (m.run ops).IndexConsistent := by
  induction ops generalizing m with
  | nil => exact ⟨hk, hi⟩
  | cons op rest ih =>
    cases op with
    | Create e => exact ih _ (Keyed_Create m e hk) (IndexConsistent_Create m e hi)
    | Update e => exact ih _ (Keyed_Update m e hk) (IndexConsistent_Update m e hk hi)
    | Delete id => exact ih _ (Keyed_Delete m id hk) (IndexConsistent_Delete m id hi)

/-- C1. Index consistency is an invariant of the store: after any sequence of
`Create`, `Update` and `Delete` calls on `NewMemory()`, successful or failing,
an id is in `byUserDate[u][k]` exactly when `byID` holds an event under that
id whose `UserID` is `u` and whose `dateKey(Date)` is `k`; that event carries
the id it is stored under. -/
theorem index_consistency (ops : List MemOp) (u : Int) (k id : String) :
    ((NewMemory.run ops).indexed u k id = true ↔
      ∃ e, (NewMemory.run ops).byID.get id = some e ∧ e.ID = id ∧ e.UserID = u ∧
        dateKey e.Date = k) := by
  obtain ⟨hk, hi⟩ := run_invariant ops NewMemory Keyed_new IndexConsistent_new
  rw [hi u k id]
  constructor
  · rintro ⟨e, he, hu, hd⟩
    exact ⟨e, he, hk id e he, hu, hd⟩
  · rintro ⟨e, he, _, hu, hd⟩
    exact ⟨e, he, hu, hd⟩

/-- Year of era computed from the day of era: its range and the range of the
day of year. -/
theorem yoe_spec (doe yoe : Int) (h0 : 0 ≤ doe) (h1 : doe ≤ 146096)
    (hy : yoe = (doe - doe / 1460 + doe / 36524 - doe / 146096) / 365) :
    0 ≤ yoe ∧ yoe ≤ 399 ∧
    0 ≤ doe - (365 * yoe + yoe / 4 - yoe / 100) ∧
    doe - (365 * yoe + yoe / 4 - yoe / 100) ≤ 365 := by
  have hd : doe / 36524 = 0 ∨ doe / 36524 = 1 ∨ doe / 36524 = 2 ∨ doe / 36524 = 3 ∨
      doe / 36524 = 4 := by omega
  have he : doe / 146096 = 0 ∨ doe / 146096 = 1 := by omega
  have hg : yoe / 100 = 0 ∨ yoe / 100 = 1 ∨ yoe / 100 = 2 ∨ yoe / 100 = 3 := by omega
  rcases hd with hd | hd | hd | hd | hd <;> rcases he with he | he <;>
    rcases hg with hg | hg | hg | hg <;> omega

/-- Day 365 of a year of era only occurs when the next year is a leap year. -/
theorem yoe_leap (doe yoe : Int) (h0 : 0 ≤ doe) (h1 : doe ≤ 146096)
    (hy : yoe = (doe - doe / 1460 + doe / 36524 - doe / 146096) / 365)
    (h365 : doe - (365 * yoe + yoe / 4 - yoe / 100) = 365) :
    (yoe + 1) % 4 = 0 ∧ ((yoe + 1) % 100 ≠ 0 ∨ (yoe + 1) % 400 = 0) := by
  have hd : doe / 36524 = 0 ∨ doe / 36524 = 1 ∨ doe / 36524 = 2 ∨ doe / 36524 = 3 ∨
      doe / 36524 = 4 := by omega
  have he : doe / 146096 = 0 ∨ doe / 146096 = 1 := by omega
  have hg : yoe / 100 = 0 ∨ yoe / 100 = 1 ∨ yoe / 100 = 2 ∨ yoe / 100 = 3 := by omega
  have hr : yoe % 4 = 0 ∨ yoe % 4 = 1 ∨ yoe % 4 = 2 ∨ yoe % 4 = 3 := by omega
  rcases hd with hd | hd | hd | hd | hd <;> rcases he with he | he <;>
    rcases hg with hg | hg | hg | hg <;> rcases hr with hr | hr | hr | hr <;> omega

/-- The year-of-era formula inverts the day count of a year. -/
theorem yoe_unique (doe yoe doy : Int) (hy0 : 0 ≤ yoe) (hy1 : yoe ≤ 399) (hd0 : 0 ≤ doy)
    (hd1 : doy ≤ 364 ∨ (doy = 365 ∧ (yoe + 1) % 4 = 0 ∧
      ((yoe + 1) % 100 ≠ 0 ∨ (yoe + 1) % 400 = 0)))
    (hdoe : doe = 365 * yoe + yoe / 4 - yoe / 100 + doy) :
    (doe - doe / 1460 + doe / 36524 - doe / 146096) / 365 = yoe := by
  have hg : yoe / 100 = 0 ∨ yoe / 100 = 1 ∨ yoe / 100 = 2 ∨ yoe / 100 = 3 := by omega
  have hr : 0 ≤ doe ∧ doe ≤ 146096 := by
    rcases hg with hg | hg | hg | hg <;> omega
  have hd : doe / 36524 = 0 ∨ doe / 36524 = 1 ∨ doe / 36524 = 2 ∨ doe / 36524 = 3 ∨
      doe / 36524 = 4 := by omega
  have he : doe / 146096 = 0 ∨ doe / 146096 = 1 := by omega
  rcases hd with hd | hd | hd | hd | hd <;> rcases he with he | he <;>
    rcases hg with hg | hg | hg | hg <;> omega

/-- Month index (March = 0) and day of month from the day of year. -/
theorem mp_spec (doy : Int) (h0 : 0 ≤ doy) (h1 : doy ≤ 365) :
    0 ≤ (5 * doy + 2) / 153 ∧ (5 * doy + 2) / 153 ≤ 11 ∧
    1 ≤ doy - (153 * ((5 * doy + 2) / 153) + 2) / 5 + 1 ∧
    doy - (153 * ((5 * doy + 2) / 153) + 2) / 5 + 1 ≤ 31 := by
  have hm : (5 * doy + 2) / 153 = 0 ∨ (5 * doy + 2) / 153 = 1 ∨ (5 * doy + 2) / 153 = 2 ∨
      (5 * doy + 2) / 153 = 3 ∨ (5 * doy + 2) / 153 = 4 ∨ (5 * doy + 2) / 153 = 5 ∨
      (5 * doy + 2) / 153 = 6 ∨ (5 * doy + 2) / 153 = 7 ∨ (5 * doy + 2) / 153 = 8 ∨
      (5 * doy + 2) / 153 = 9 ∨ (5 * doy + 2) / 153 = 10 ∨ (5 * doy + 2) / 153 = 11 := by
    omega
  rcases hm with h | h | h | h | h | h | h | h | h | h | h | h <;> rw [h] <;> omega

/-- The decomposition of a day number computed by `civilFromDays`: era, year
of era, day of year and month index (March = 0), with their ranges. -/
theorem civilFromDays_decomp (z : Int) :
    ∃ era yoe doy mp : Int,
      0 ≤ yoe ∧ yoe ≤ 399 ∧ 0 ≤ doy ∧
      (doy ≤ 364 ∨ (doy = 365 ∧ (yoe + 1) % 4 = 0 ∧
        ((yoe + 1) % 100 ≠ 0 ∨ (yoe + 1) % 400 = 0))) ∧
      0 ≤ mp ∧ mp ≤ 11 ∧ mp = (5 * doy + 2) / 153 ∧
      z + 719468 = era * 146097 + (365 * yoe + yoe / 4 - yoe / 100) + doy ∧
      civilFromDays z =
        { year := yoe + era * 400 + (if mp < 10 then 0 else 1),
          month := if mp < 10 then mp + 3 else mp - 9,
          day := doy - (153 * mp + 2) / 5 + 1 } := by
  have hdoe : 0 ≤ z + 719468 - (z + 719468) / 146097 * 146097 ∧
      z + 719468 - (z + 719468) / 146097 * 146097 ≤ 146096 := by omega
  obtain ⟨hy0, hy1, hd0, hd1⟩ := yoe_spec _ _ hdoe.1 hdoe.2 rfl
  have hleap := yoe_leap _ _ hdoe.1 hdoe.2 rfl
  obtain ⟨hm0, hm1, -, -⟩ := mp_spec _ hd0 hd1
  refine ⟨(z + 719468) / 146097, _, _, _, hy0, hy1, hd0, ?_, hm0, hm1, rfl, ?_, ?_⟩
  · rcases Int.lt_or_le
      (z + 719468 - (z + 719468) / 146097 * 146097 -
        (365 * ((z + 719468 - (z + 719468) / 146097 * 146097 -
          (z + 719468 - (z + 719468) / 146097 * 146097) / 1460 +
          (z + 719468 - (z + 719468) / 146097 * 146097) / 36524 -
          (z + 719468 - (z + 719468) / 146097 * 146097) / 146096) / 365) +
        ((z + 719468 - (z + 719468) / 146097 * 146097 -
          (z + 719468 - (z + 719468) / 146097 * 146097) / 1460 +
          (z + 719468 - (z + 719468) / 146097 * 146097) / 36524 -
          (z + 719468 - (z + 719468) / 146097 * 146097) / 146096) / 365) / 4 -
        ((z + 719468 - (z + 719468) / 146097 * 146097 -
          (z + 719468 - (z + 719468) / 146097 * 146097) / 1460 +
          (z + 719468 - (z + 719468) / 146097 * 146097) / 36524 -
          (z + 719468 - (z + 719468) / 146097 * 146097) / 146096) / 365) / 100)) 365 with h | h
    · left; exact Int.lt_add_one_iff.mp h
    · right; exact ⟨Int.le_antisymm hd1 h, hleap (Int.le_antisymm hd1 h)⟩
  · ring
  · unfold civilFromDays
    simp only []
    split_ifs <;> first | rfl | (exfalso; omega)

/-- Going to a civil date and back gives the day number again. -/
theorem daysFromCivil_civilFromDays (z : Int) :
    daysFromCivil (civilFromDays z).year (civilFromDays z).month (civilFromDays z).day = z := by
  obtain ⟨era, yoe, doy, mp, hy0, hy1, hd0, -, hm0, hm1, hmp, hz, hc⟩ := civilFromDays_decomp z
  rw [hc]
  unfold daysFromCivil
  simp only []
  split_ifs <;> omega

/-- The fields of a civil date computed from a day number are a valid date. -/
theorem civilFromDays_valid (z : Int) :
    1 ≤ (civilFromDays z).month ∧ (civilFromDays z).month ≤ 12 ∧
    1 ≤ (civilFromDays z).day ∧
    (civilFromDays z).day ≤ daysIn (civilFromDays z).year (civilFromDays z).month := by
  obtain ⟨era, yoe, doy, mp, hy0, hy1, hd0, hd1, hm0, hm1, hmp, hz, hc⟩ := civilFromDays_decomp z
  rw [hc]
  unfold daysIn isLeap
  simp only [decide_eq_true_eq]
  have hm : mp = 0 ∨ mp = 1 ∨ mp = 2 ∨ mp = 3 ∨ mp = 4 ∨ mp = 5 ∨ mp = 6 ∨ mp = 7 ∨ mp = 8 ∨
      mp = 9 ∨ mp = 10 ∨ mp = 11 := by omega
  rcases hm with h | h | h | h | h | h | h | h | h | h | h | h <;> subst h <;>
    norm_num <;> (try split_ifs) <;> omega

/-- A valid civil date is recovered from its day number. -/
theorem civilFromDays_daysFromCivil (y m d : Int) (hm0 : 1 ≤ m) (hm1 : m ≤ 12)
    (hd0 : 1 ≤ d) (hd1 : d ≤ daysIn y m) :
    civilFromDays (daysFromCivil y m d) = { year := y, month := m, day := d } := by
  -- the quantities computed by `daysFromCivil`
  obtain ⟨y', hy'⟩ : ∃ y' : Int, y' = if m ≤ 2 then y - 1 else y := ⟨_, rfl⟩
  obtain ⟨mp, hmp⟩ : ∃ mp : Int, mp = if m > 2 then m - 3 else m + 9 := ⟨_, rfl⟩
  obtain ⟨era, hera⟩ : ∃ era : Int, era = y' / 400 := ⟨_, rfl⟩
  obtain ⟨yoe, hyoe⟩ : ∃ yoe : Int, yoe = y' - era * 400 := ⟨_, rfl⟩
  obtain ⟨doy, hdoy⟩ : ∃ doy : Int, doy = (153 * mp + 2) / 5 + d - 1 := ⟨_, rfl⟩
  obtain ⟨doe, hdoe⟩ : ∃ doe : Int, doe = 365 * yoe + yoe / 4 - yoe / 100 + doy := ⟨_, rfl⟩
  have hz : daysFromCivil y m d = era * 146097 + doe - 719468 := by
    unfold daysFromCivil
    simp only []
    rw [← hy', ← hmp, ← hera, ← hyoe, hdoe, hdoy]
    ring
  have hy0 : 0 ≤ yoe ∧ yoe ≤ 399 := by omega
  have hmpr : 0 ≤ mp ∧ mp ≤ 11 := by split_ifs at hmp <;> omega
  have hmm : m = if mp < 10 then mp + 3 else mp - 9 := by
    split_ifs at hmp ⊢ <;> omega
  have hyy : y = yoe + era * 400 + (if m ≤ 2 then 1 else 0) := by
    split_ifs at hy' ⊢ <;> omega
  -- the day of year is within the year
  have hdoyr : 0 ≤ doy ∧ (doy ≤ 364 ∨ (doy = 365 ∧ (yoe + 1) % 4 = 0 ∧
      ((yoe + 1) % 100 ≠ 0 ∨ (yoe + 1) % 400 = 0))) := by
    unfold daysIn isLeap at hd1
    simp only [decide_eq_true_eq] at hd1
    have hm : m = 1 ∨ m = 2 ∨ m = 3 ∨ m = 4 ∨ m = 5 ∨ m = 6 ∨ m = 7 ∨ m = 8 ∨ m = 9 ∨
        m = 10 ∨ m = 11 ∨ m = 12 := by omega
    rcases hm with h | h | h | h | h | h | h | h | h | h | h | h <;> subst h <;>
      norm_num at hd1 hmp hy' <;> subst hmp <;> (try split_ifs at hd1) <;> omega
  have hmp2 : (5 * doy + 2) / 153 = mp ∧ doy - (153 * mp + 2) / 5 + 1 = d := by
    have hm : mp = 0 ∨ mp = 1 ∨ mp = 2 ∨ mp = 3 ∨ mp = 4 ∨ mp = 5 ∨ mp = 6 ∨ mp = 7 ∨
        mp = 8 ∨ mp = 9 ∨ mp = 10 ∨ mp = 11 := by omega
    unfold daysIn at hd1
    rcases hm with h | h | h | h | h | h | h | h | h | h | h | h <;> rw [h] at hdoy hmm <;>
      norm_num at hmm <;> subst hmm <;> norm_num at hd1 <;> (try split_ifs at hd1) <;>
      rw [h] <;> omega
  have hyu := yoe_unique doe yoe doy hy0.1 hy0.2 hdoyr.1 hdoyr.2 hdoe
  have hdoer : 0 ≤ doe ∧ doe ≤ 146096 := by
    have hg : yoe / 100 = 0 ∨ yoe / 100 = 1 ∨ yoe / 100 = 2 ∨ yoe / 100 = 3 := by omega
    rcases hg with hg | hg | hg | hg <;> omega
  have hera2 : (era * 146097 + doe - 719468 + 719468) / 146097 = era := by omega
  rw [hz]
  unfold civilFromDays
  simp only []
  rw [hera2]
  have hdoe2 : era * 146097 + doe - 719468 + 719468 - era * 146097 = doe := by ring
  rw [hdoe2, hyu]
  have hdoy2 : doe - (365 * yoe + yoe / 4 - yoe / 100) = doy := by omega
  rw [hdoy2, hmp2.1, hmp2.2, ← hmm, ← hyy]

theorem nsPerDay_pos : (0 : Int) < nsPerDay := by unfold nsPerDay; omega

/-- Truncation to 24h gives midnight of the same UTC day. -/
theorem Truncate24h_eq (t : Int) : Truncate24h t = utcDay t * nsPerDay := by
  unfold Truncate24h utcDay nsPerDay; omega

theorem utcDay_mul (n : Int) : utcDay (n * nsPerDay) = n := by
  unfold utcDay nsPerDay; omega

theorem utcClock_mul (n : Int) : utcClock (n * nsPerDay) = 0 := by
  unfold utcClock nsPerDay; omega

theorem utcDay_Truncate24h (t : Int) : utcDay (Truncate24h t) = utcDay t := by
  rw [Truncate24h_eq, utcDay_mul]

theorem utcDay_add_days (t : Int) (k : Int) : utcDay (t + k * nsPerDay) = utcDay t + k := by
  unfold utcDay nsPerDay; omega

theorem daysFromCivil_add (y m d k : Int) :
    daysFromCivil y m (d + k) = daysFromCivil y m d + k := by
  unfold daysFromCivil; simp only []; omega

theorem goDate_valid_month (y m d c : Int) (hm0 : 1 ≤ m) (hm1 : m ≤ 12) :
    goDate y m d c = daysFromCivil y m d * nsPerDay + c := by
  unfold goDate
  simp only []
  have h1 : (m - 1) / 12 = 0 := by omega
  have h2 : (m - 1) % 12 + 1 = m := by omega
  rw [h1, h2, Int.add_zero]

/-- `AddDate(0, 0, k)` moves a time by exactly `k` days. -/
theorem AddDate_days (t : Int) (k : Int) : AddDate t 0 0 k = t + k * nsPerDay := by
  obtain ⟨hm0, hm1, -, -⟩ := civilFromDays_valid (utcDay t)
  unfold AddDate
  simp only [Int.add_zero]
  rw [goDate_valid_month _ _ _ _ hm0 hm1, daysFromCivil_add, daysFromCivil_civilFromDays]
  unfold utcDay utcClock nsPerDay
  omega

/-- The first day of the month after month `m` of year `y` comes `daysIn y m`
days after the first of that month. -/
theorem goDate_next_month (y m : Int) (hm0 : 1 ≤ m) (hm1 : m ≤ 12) :
    goDate y (m + 1) 1 0 = goDate y m 1 0 + daysIn y m * nsPerDay := by
  rw [goDate_valid_month y m 1 0 hm0 hm1]
  unfold goDate daysFromCivil daysIn isLeap
  simp only [decide_eq_true_eq]
  have hm : m = 1 ∨ m = 2 ∨ m = 3 ∨ m = 4 ∨ m = 5 ∨ m = 6 ∨ m = 7 ∨ m = 8 ∨ m = 9 ∨
      m = 10 ∨ m = 11 ∨ m = 12 := by omega
  unfold nsPerDay
  rcases hm with h | h | h | h | h | h | h | h | h | h | h | h <;> subst h <;>
    norm_num <;> (try split_ifs) <;> omega

/-- The weekday of a day number is Monday (1) after moving back by the
offset `(weekday + 6) % 7`. -/
theorem Weekday_monday (t : Int) :
    Weekday (AddDate t 0 0 (-((Weekday t + 6) % 7))) = 1 := by
  rw [AddDate_days]
  unfold Weekday
  rw [utcDay_add_days]
  omega

theorem digitVal_digitChar (d : Nat) : digitVal (digitChar d) = d % 10 := by
  have h : ∀ k, k < 10 → digitVal (Char.ofNat (48 + k)) = k := by decide
  exact h (d % 10) (Nat.mod_lt _ (by decide))

theorem digitChar_ne_minus (d : Nat) : digitChar d ≠ '-' := by
  have h : ∀ k, k < 10 → Char.ofNat (48 + k) ≠ '-' := by decide
  exact h (d % 10) (Nat.mod_lt _ (by decide))

theorem digitChar_ne_colon (d : Nat) : digitChar d ≠ ':' := by
  have h : ∀ k, k < 10 → Char.ofNat (48 + k) ≠ ':' := by decide
  exact h (d % 10) (Nat.mod_lt _ (by decide))

/-- The digit loop prepends a non-empty run of digits that reads as `n`. -/
theorem natDigitsAux_spec (fuel n : Nat) (acc : List Char) (h : n < 10 ^ (fuel + 1)) :
    ∃ D : List Char, natDigitsAux (fuel + 1) n acc = D ++ acc ∧ D ≠ [] ∧
      (∀ c ∈ D, c ≠ '-' ∧ c ≠ ':') ∧
      ∀ a, D.foldl (fun a c => 10 * a + digitVal c) a = a * 10 ^ D.length + n := by
  induction fuel generalizing n acc with
  | zero =>
    have hn : n < 10 := by simpa using h
    unfold natDigitsAux
    refine ⟨[digitChar n], by simp [hn], by simp, ?_, ?_⟩
    · intro c hc
      rw [List.mem_singleton.mp hc]
      exact ⟨digitChar_ne_minus n, digitChar_ne_colon n⟩
    · intro a
      simp [digitVal_digitChar, Nat.mod_eq_of_lt hn]
      omega
  | succ f ih =>
    unfold natDigitsAux
    by_cases hn : n < 10
    · refine ⟨[digitChar n], by simp [hn], by simp, ?_, ?_⟩
      · intro c hc
        rw [List.mem_singleton.mp hc]
        exact ⟨digitChar_ne_minus n, digitChar_ne_colon n⟩
      · intro a
        simp [digitVal_digitChar, Nat.mod_eq_of_lt hn]
        omega
    · have hlt : n / 10 < 10 ^ (f + 1) := by
        apply Nat.div_lt_of_lt_mul
        rw [pow_succ] at h
        omega
      obtain ⟨D, hD, hne, hminus, hfold⟩ := ih (n / 10) (digitChar n :: acc) hlt
      refine ⟨D ++ [digitChar n], by simp [hn, hD], by simp, ?_, ?_⟩
      · intro c hc
        rcases List.mem_append.mp hc with hc | hc
        · exact hminus c hc
        · rw [List.mem_singleton.mp hc]
          exact ⟨digitChar_ne_minus n, digitChar_ne_colon n⟩
      · intro a
        rw [List.foldl_append, hfold a]
        simp only [List.foldl_cons, List.foldl_nil, digitVal_digitChar, List.length_append,
          List.length_singleton, pow_succ]
        have := Nat.div_add_mod n 10
        nlinarith [this]

theorem parseNat_zeros (k : Nat) (D : List Char) :
    parseNat (List.replicate k '0' ++ D) = parseNat D := by
  unfold parseNat
  rw [List.foldl_append]
  congr 1
  induction k with
  | zero => rfl
  | succ k ih =>
    rw [List.replicate_succ, List.foldl_cons]
    simpa [digitVal] using ih

theorem parseInt_of_not_minus (l : List Char) (h : ∀ r, l ≠ '-' :: r) :
    parseInt l = (parseNat l : Int) := by
  unfold parseInt
  split
  · rename_i r
    exact absurd rfl (h r)
  · rfl

/-- Reading back what `appendInt` wrote gives the number. -/
theorem parseInt_appendInt (x : Int) (w : Nat) : parseInt (appendInt x w) = x := by
  obtain ⟨D, hD, hne, hminus, hfold⟩ := natDigitsAux_spec x.natAbs x.natAbs []
    (Nat.lt_of_lt_of_le (Nat.lt_pow_self (by decide) _) (Nat.pow_le_pow_right (by decide) (Nat.le_succ _)))
  have hD' : natDigits x.natAbs = D := by simpa [natDigits] using hD
  have hval : parseNat D = x.natAbs := by
    unfold parseNat; rw [hfold 0]; simp
  unfold appendInt
  simp only [hD']
  by_cases hx : x < 0
  · simp only [hx, if_true, List.singleton_append, List.cons_append, List.nil_append]
    unfold parseInt
    simp only [parseNat_zeros, hval]
    omega
  · simp only [hx, if_false, List.nil_append]
    have hhead : ∀ r, List.replicate (w - D.length) '0' ++ D ≠ '-' :: r := by
      intro r hr
      cases hk : w - D.length with
      | zero =>
        rw [hk] at hr
        simp only [List.replicate_zero, List.nil_append] at hr
        exact (hminus '-' (by rw [hr]; exact List.mem_cons_self _ _)).1 rfl
      | succ k =>
        rw [hk, List.replicate_succ, List.cons_append] at hr
        have := (List.cons.inj hr).1
        exact absurd this (by decide)
    rw [parseInt_of_not_minus _ hhead, parseNat_zeros, hval]
    omega

theorem appendInt_injective (x y : Int) (w : Nat) (h : appendInt x w = appendInt y w) :
    x = y := by
  rw [← parseInt_appendInt x w, ← parseInt_appendInt y w, h]

theorem appendInt_two_length (x : Int) (h0 : 1 ≤ x) (h1 : x ≤ 31) :
    (appendInt x 2).length = 2 := by
  interval_cases x <;> rfl

/-- Distinct valid civil dates are formatted differently. -/
theorem formatDate_injective (c c' : Civil) (hm : 1 ≤ c.month ∧ c.month ≤ 12)
    (hd : 1 ≤ c.day ∧ c.day ≤ 31) (hm' : 1 ≤ c'.month ∧ c'.month ≤ 12)
    (hd' : 1 ≤ c'.day ∧ c'.day ≤ 31) (h : formatDate c = formatDate c') : c = c' := by
  unfold formatDate at h
  have h1 := congrArg String.data h
  simp only at h1
  have lm := appendInt_two_length c.month hm.1 (by omega)
  have lm' := appendInt_two_length c'.month hm'.1 (by omega)
  have ld := appendInt_two_length c.day hd.1 hd.2
  have ld' := appendInt_two_length c'.day hd'.1 hd'.2
  have h2 := List.append_inj' h1 (by simp [lm, lm', ld, ld'])
  have h3 := List.append_inj' h2.1 (by simp [lm, lm'])
  have h4 := (List.cons.inj h3.2).2
  have h5 := (List.cons.inj h2.2).2
  obtain ⟨y, m, d⟩ := c
  obtain ⟨y', m', d'⟩ := c'
  simp only at h3 h4 h5
  rw [appendInt_injective _ _ _ h3.1, appendInt_injective _ _ _ h4,
    appendInt_injective _ _ _ h5]

theorem daysIn_le (y m : Int) : daysIn y m ≤ 31 := by
  unfold daysIn; split_ifs <;> omega

/-- Two instants have the same date key exactly when they lie on the same UTC day. -/
theorem dateKey_eq_iff (s t : Int) : dateKey s = dateKey t ↔ utcDay s = utcDay t := by
  constructor
  · intro h
    unfold dateKey UTC at h
    obtain ⟨a1, a2, a3, a4⟩ := civilFromDays_valid (utcDay s)
    obtain ⟨b1, b2, b3, b4⟩ := civilFromDays_valid (utcDay t)
    have hc := formatDate_injective _ _ ⟨a1, a2⟩ ⟨a3, le_trans a4 (daysIn_le _ _)⟩
      ⟨b1, b2⟩ ⟨b3, le_trans b4 (daysIn_le _ _)⟩ h
    rw [← daysFromCivil_civilFromDays (utcDay s), ← daysFromCivil_civilFromDays (utcDay t), hc]
  · intro h
    unfold dateKey UTC
    rw [h]

/-! ## Sorting -/

theorem sortSlice_perm {α : Type} (less : α → α → Bool) (xs : List α) :
    (sortSlice less xs).Perm xs :=
  List.perm_insertionSort _ xs

/-- Sorting by `Created` gives a list in non-decreasing order of `Created`. -/
theorem sortSlice_created_sorted (xs : List Event) :
    (sortSlice (fun a b => Time.Before a.Created b.Created) xs).Pairwise
      (fun a b => a.Created ≤ b.Created) := by
  have htot : IsTotal Event (fun a b => Time.Before b.Created a.Created = false) :=
    ⟨fun a b => by simp only [Time.Before, decide_eq_false_iff_not]; omega⟩
  have htrans : IsTrans Event (fun a b => Time.Before b.Created a.Created = false) :=
    ⟨fun a b c => by simp only [Time.Before, decide_eq_false_iff_not]; omega⟩
  have hs := List.sorted_insertionSort (fun a b => Time.Before b.Created a.Created = false) xs
  refine List.Pairwise.imp ?_ hs
  intro a b hab
  simp only [Time.Before, decide_eq_false_iff_not] at hab
  omega

theorem lessDateCreated_false_iff (a b : Event) :
    lessDateCreated b a = false ↔
      a.Date ≤ b.Date ∧ (a.Date = b.Date → a.Created ≤ b.Created) := by
  unfold lessDateCreated Time.Equal Time.Before
  by_cases h : b.Date = a.Date
  · rw [if_pos (decide_eq_true h), decide_eq_false_iff_not]
    constructor
    · intro h1; exact ⟨by omega, fun _ => by omega⟩
    · intro h1; have := h1.2 h.symm; omega
  · rw [if_neg (by simpa using h), decide_eq_false_iff_not]
    constructor
    · intro h1; exact ⟨by omega, fun h2 => absurd h2.symm h⟩
    · intro h1; omega

/-- Sorting with the range comparison orders by `Date`, then by `Created`. -/
theorem sortSlice_dateCreated_sorted (xs : List Event) :
    (sortSlice lessDateCreated xs).Pairwise
      (fun a b => a.Date ≤ b.Date ∧ (a.Date = b.Date → a.Created ≤ b.Created)) := by
  have htot : IsTotal Event (fun a b => lessDateCreated b a = false) :=
    ⟨fun a b => by
      simp only [lessDateCreated_false_iff]
      by_cases h : a.Date = b.Date
      · by_cases h2 : a.Created ≤ b.Created
        · left; exact ⟨by omega, fun _ => h2⟩
        · right; exact ⟨by omega, fun _ => by omega⟩
      · by_cases h2 : a.Date ≤ b.Date
        · left; exact ⟨h2, fun h3 => absurd h3 h⟩
        · right; exact ⟨by omega, fun h3 => absurd h3.symm h⟩⟩
  have htrans : IsTrans Event (fun a b => lessDateCreated b a = false) :=
    ⟨fun a b c => by
      simp only [lessDateCreated_false_iff]
      rintro ⟨h1, h2⟩ ⟨h3, h4⟩
      refine ⟨by omega, fun h5 => ?_⟩
      have e1 : a.Date = b.Date := by omega
      have e2 : b.Date = c.Date := by omega
      have := h2 e1
      have := h4 e2
      omega⟩
  have hs := List.sorted_insertionSort (fun a b => lessDateCreated b a = false) xs
  refine List.Pairwise.imp ?_ hs
  intro a b hab
  exact (lessDateCreated_false_iff a b).mp hab

/-! ## Buckets and stored events -/

/-- Reading the event of every key of a map gives its values. -/
theorem map_get_keys (byID : GoMap String Event) (l : List (String × Event))
    (hl : ∀ p ∈ l, p ∈ byID.entries) :
    (l.map Prod.fst).map (fun id => (byID.get id).getD Event.zero) = l.map Prod.snd := by
  rw [List.map_map]
  apply List.map_congr_left
  rintro ⟨id, e⟩ hp
  simp [(GoMap.get_eq_some_iff byID id e).mpr (hl _ hp)]

/-- Under index consistency, the events read through a bucket are, each
once, the stored events of that user and date key. -/
theorem eventsOf_bucket_perm (m : Memory) (h : m.IndexConsistent) (u : Int) (dk : String) :
    (m.eventsOf (bucket m.byUserDate u dk)).Perm
      (m.byID.values.filter (fun e => decide (e.UserID = u ∧ dateKey e.Date = dk))) := by
  let q : String × Event → Bool := fun p => decide (p.2.UserID = u ∧ dateKey p.2.Date = dk)
  have hvals : m.byID.values.filter (fun e => decide (e.UserID = u ∧ dateKey e.Date = dk)) =
      (m.byID.entries.filter q).map Prod.snd := by
    unfold GoMap.values
    rw [List.filter_map]
    rfl
  rw [hvals, ← map_get_keys m.byID (m.byID.entries.filter q) (fun p hp => (List.mem_filter.mp hp).1)]
  unfold Memory.eventsOf
  apply List.Perm.map
  have hnd1 : (bucket m.byUserDate u dk).keys.Nodup := (bucket m.byUserDate u dk).nodup
  have hnd2 : ((m.byID.entries.filter q).map Prod.fst).Nodup :=
    m.byID.nodup.sublist ((List.filter_sublist _).map Prod.fst)
  rw [List.perm_ext_iff_of_nodup hnd1 hnd2]
  intro id
  rw [GoMap.mem_keys_iff]
  have hi := h u dk id
  unfold Memory.indexed at hi
  rw [hi]
  constructor
  · rintro ⟨e, he, hu, hd⟩
    refine List.mem_map.mpr ⟨(id, e), List.mem_filter.mpr ⟨(GoMap.get_eq_some_iff _ _ _).mp he, ?_⟩, rfl⟩
    simp [q, hu, hd]
  · intro hmem
    obtain ⟨⟨id', e⟩, hp, rfl⟩ := List.mem_map.mp hmem
    obtain ⟨hin, hq⟩ := List.mem_filter.mp hp
    simp only [q, decide_eq_true_eq] at hq
    exact ⟨e, (GoMap.get_eq_some_iff _ _ _).mpr hin, hq.1, hq.2⟩

theorem filter_congr_pred {α : Type} (l : List α) (p q : α → Bool) (h : ∀ a, p a = q a) :
    l.filter p = l.filter q := by
  have : p = q := funext h
  rw [this]

/-- Under index consistency, what `ListForDate` reads through the bucket and
sorts is, each once, the stored events of the user on that UTC day. -/
theorem ListForDate_perm (m : Memory) (h : m.IndexConsistent) (u : Int) (date : Int) :
    (sortSlice (fun a b => Time.Before a.Created b.Created)
        (m.eventsOf (bucket m.byUserDate u (dateKey date)))).Perm
      (m.byID.values.filter
        (fun e => decide (e.UserID = u ∧ utcDay e.Date = utcDay date))) := by
  refine (sortSlice_perm _ _).trans ?_
  refine (eventsOf_bucket_perm m h u (dateKey date)).trans ?_
  rw [filter_congr_pred _ _ (fun e => decide (e.UserID = u ∧ utcDay e.Date = utcDay date))]
  intro e
  simp only [dateKey_eq_iff]

/-- C8. For every store state satisfying index consistency,
`ListForDate(u, date)` returns without error a list that holds, each exactly
once, all and only the stored events with `UserID` `u` whose UTC day is the
UTC day of `date`, in non-decreasing order of `Created`. -/
theorem ListForDate_spec (m : Memory) (h : m.IndexConsistent) (u : Int) (date : Int) :
    ∃ res, m.ListForDate u date = .ok res ∧
      res.Perm (m.byID.values.filter
        (fun e => decide (e.UserID = u ∧ utcDay e.Date = utcDay date))) ∧
      res.Pairwise (fun a b => a.Created ≤ b.Created) := by
  have hres : m.ListForDate u date = .ok (sortSlice
      (fun a b => Time.Before a.Created b.Created)
      (m.eventsOf (bucket m.byUserDate u (dateKey date)))) := rfl
  exact ⟨_, hres, ListForDate_perm m h u date, sortSlice_created_sorted _⟩

theorem dayCount_zero (d upto : Int) (h : ¬ d < upto) : dayCount d upto = 0 := by
  unfold dayCount nsPerDay; omega

theorem dayCount_succ (d upto : Int) (h : d < upto) :
    dayCount d upto = dayCount (d + nsPerDay) upto + 1 := by
  unfold dayCount nsPerDay; omega

theorem dayCount_pos (d upto : Int) (n : Nat) (h : dayCount d upto = n + 1) : d < upto := by
  unfold dayCount nsPerDay at h; omega

/-- With more fuel than there are days before `upto`, the day loop ends and
returns what the iterations collected. -/
theorem rangeLoop_eq (m : Memory) (u upto : Int) (n : Nat) :
    ∀ (fuel : Nat) (d : Int) (res : List Event), dayCount d upto = n → n < fuel →
      m.rangeLoop u upto fuel d res = some (res ++ m.rangeCollect u d n) := by
  induction n with
  | zero =>
    intro fuel d res hn hf
    obtain ⟨f, rfl⟩ : ∃ f, fuel = f + 1 := ⟨fuel - 1, by omega⟩
    have hd : ¬ d < upto := by
      intro hlt
      rw [dayCount_succ d upto hlt] at hn
      omega
    simp [Memory.rangeLoop, Memory.rangeCollect, Time.Before, UTC, hd]
  | succ n ih =>
    intro fuel d res hn hf
    obtain ⟨f, rfl⟩ : ∃ f, fuel = f + 1 := ⟨fuel - 1, by omega⟩
    have hd : d < upto := dayCount_pos d upto n hn
    have hn' : dayCount (d + nsPerDay) upto = n := by
      rw [dayCount_succ d upto hd] at hn
      omega
    have hstep : AddDate d 0 0 1 = d + nsPerDay := by
      rw [AddDate_days]; omega
    unfold Memory.rangeLoop
    simp only [Time.Before, UTC, hd, decide_True, if_true]
    rw [hstep, ih f (d + nsPerDay) _ hn' (by omega)]
    simp [Memory.rangeCollect, List.append_assoc]

/-- Filtering by two predicates that exclude each other and concatenating
is filtering by their disjunction, up to order. -/
theorem filter_append_perm {α : Type} (l : List α) (p q : α → Bool)
    (h : ∀ a ∈ l, ¬ (p a = true ∧ q a = true)) :
    (l.filter p ++ l.filter q).Perm (l.filter (fun a => p a || q a)) := by
  induction l with
  | nil => simp
  | cons a r ih =>
    have ih' := ih (fun b hb => h b (List.mem_cons_of_mem _ hb))
    have ha := h a (List.mem_cons_self _ _)
    cases hp : p a <;> cases hq : q a
    · simpa [List.filter_cons, hp, hq] using ih'
    · simp only [List.filter_cons, hp, hq, Bool.false_eq_true, if_false, if_true, Bool.or_true]
      exact List.perm_middle.trans (List.Perm.cons a ih')
    · simp only [List.filter_cons, hp, hq, Bool.false_eq_true, if_false, if_true, Bool.or_false,
        List.cons_append]
      exact List.Perm.cons a ih'
    · exact absurd ⟨hp, hq⟩ ha

/-- Under index consistency, `n` iterations of the day loop from `d` collect,
each once, the stored events of the user on the `n` UTC days from that of `d`. -/
theorem rangeCollect_perm (m : Memory) (h : m.IndexConsistent) (u : Int) (n : Nat) :
    ∀ d : Int, (m.rangeCollect u d n).Perm
      (m.byID.values.filter (fun e =>
        decide (e.UserID = u ∧ utcDay d ≤ utcDay e.Date ∧ utcDay e.Date < utcDay d + n))) := by
  induction n with
  | zero =>
    intro d
    have : m.byID.values.filter (fun e =>
        decide (e.UserID = u ∧ utcDay d ≤ utcDay e.Date ∧
          utcDay e.Date < utcDay d + ((0 : Nat) : Int))) = [] := by
      rw [List.filter_eq_nil_iff]
      intro e _
      simp only [decide_eq_true_eq]
      omega
    rw [this]
    exact List.Perm.refl _
  | succ n ih =>
    intro d
    unfold Memory.rangeCollect
    have hday : utcDay (d + nsPerDay) = utcDay d + 1 := by
      have := utcDay_add_days d 1
      rwa [Int.one_mul] at this
    refine ((eventsOf_bucket_perm m h u (dateKey d)).append (ih (d + nsPerDay))).trans ?_
    refine (filter_append_perm _ _ _ ?_).trans ?_
    · intro e _
      simp only [decide_eq_true_eq, dateKey_eq_iff, hday]
      omega
    · rw [filter_congr_pred]
      intro e
      simp only [dateKey_eq_iff, hday, ← Bool.decide_or]
      apply decide_eq_decide.mpr
      push_cast
      constructor
      · rintro (⟨h1, h2⟩ | ⟨h1, h2, h3⟩)
        · exact ⟨h1, by omega, by omega⟩
        · exact ⟨h1, by omega, by omega⟩
      · rintro ⟨h1, h2, h3⟩
        by_cases he : utcDay e.Date = utcDay d
        · left; exact ⟨h1, he⟩
        · right; exact ⟨h1, by omega, by omega⟩

theorem ListForRange_eq (m : Memory) (u frm upto : Int) (fuel : Nat)
    (hfuel : dayCount frm upto < fuel) :
    m.ListForRange fuel u frm upto =
      some (.ok (sortSlice lessDateCreated (m.rangeCollect u frm (dayCount frm upto)))) := by
  unfold Memory.ListForRange
  rw [UTC, rangeLoop_eq m u upto (dayCount frm upto) fuel frm [] rfl hfuel]
  simp

/-- Under index consistency and for bounds at UTC midnight, what the day loop
collects and the sort reorders is, each once, the stored events of the user
whose UTC day lies in the half-open range. -/
theorem ListForRange_perm (m : Memory) (h : m.IndexConsistent) (u frm upto : Int)
    (hf : frm % nsPerDay = 0) (ht : upto % nsPerDay = 0) :
    (sortSlice lessDateCreated (m.rangeCollect u frm (dayCount frm upto))).Perm
      (m.byID.values.filter (fun e =>
        decide (e.UserID = u ∧ frm ≤ Truncate24h e.Date ∧ Truncate24h e.Date < upto))) := by
  refine (sortSlice_perm _ _).trans ?_
  refine (rangeCollect_perm m h u _ frm).trans ?_
  rw [filter_congr_pred]
  intro e
  apply decide_eq_decide.mpr
  unfold utcDay Truncate24h dayCount
  unfold nsPerDay at hf ht ⊢
  constructor
  · rintro ⟨h1, h2, h3⟩
    exact ⟨h1, by omega, by omega⟩
  · rintro ⟨h1, h2, h3⟩
    exact ⟨h1, by omega, by omega⟩

/-- C6. For every store state satisfying index consistency and every
`from`, `to` at UTC midnight, `ListForRange(u, from, to)` (run with enough
fuel for its day loop) returns no error and returns, each exactly once,
precisely the stored events with `UserID` `u` whose UTC day `d` satisfies
`from <= d < to`; when `to <= from`, or when nothing matches, the result is
the empty sequence. -/
theorem ListForRange_spec (m : Memory) (h : m.IndexConsistent) (u frm upto : Int)
    (hf : frm % nsPerDay = 0) (ht : upto % nsPerDay = 0) (fuel : Nat)
    (hfuel : dayCount frm upto < fuel) :
    ∃ res, m.ListForRange fuel u frm upto = some (.ok res) ∧
      res.Perm (m.byID.values.filter (fun e =>
        decide (e.UserID = u ∧ frm ≤ Truncate24h e.Date ∧ Truncate24h e.Date < upto))) ∧
      (upto ≤ frm → res = []) ∧
      ((∀ e ∈ m.byID.values,
        ¬ (e.UserID = u ∧ frm ≤ Truncate24h e.Date ∧ Truncate24h e.Date < upto)) → res = []) := by
  have hperm := ListForRange_perm m h u frm upto hf ht
  refine ⟨_, ListForRange_eq m u frm upto fuel hfuel, hperm, ?_, ?_⟩
  · intro hle
    apply List.Perm.eq_nil
    refine hperm.trans ?_
    rw [List.filter_eq_nil_iff.mpr]
    intro e _
    simp only [decide_eq_true_eq]
    omega
  · intro hnone
    apply List.Perm.eq_nil
    refine hperm.trans ?_
    rw [List.filter_eq_nil_iff.mpr]
    intro e he
    simp only [decide_eq_true_eq]
    exact hnone e he

/-- C7. For every store state and every `u`, `from`, `to`, the sequence
returned by `ListForRange` (run with enough fuel for its day loop) is ordered
by `Date` ascending, then by `Created` ascending: for positions `i < j`,
`result[i].Date` is not after `result[j].Date`, and when the two dates are
equal `result[i].Created` is not after `result[j].Created`. -/
theorem ListForRange_sorted (m : Memory) (u frm upto : Int) (fuel : Nat)
    (hfuel : dayCount frm upto < fuel) :
    ∃ res, m.ListForRange fuel u frm upto = some (.ok res) ∧
      ∀ (i j : Nat) (a b : Event), i < j → res[i]? = some a → res[j]? = some b →
        a.Date ≤ b.Date ∧ (a.Date = b.Date → a.Created ≤ b.Created) := by
  refine ⟨_, ListForRange_eq m u frm upto fuel hfuel, ?_⟩
  intro i j a b hij ha hb
  have hs := sortSlice_dateCreated_sorted (m.rangeCollect u frm (dayCount frm upto))
  rw [List.pairwise_iff_getElem] at hs
  obtain ⟨hi, rfl⟩ := List.getElem?_eq_some.mp ha
  obtain ⟨hj, rfl⟩ := List.getElem?_eq_some.mp hb
  exact hs i j hi hj hij

/-! ## The service keeps the store invariants -/

theorem ExistsByUserDateTitle_ok (m : Memory) (u date : Int) (title : String) :
    m.ExistsByUserDateTitle u date title =
      .ok (m.titleIn title (bucket m.byUserDate u (dateKey date)).keys) := rfl

/-- The store after `CreateEvent` is the old one or the result of one `Create`. -/
theorem CreateEvent_repo (s : Service) (idNow clk1 clk2 u date : Int) (title : String) :
    (s.CreateEvent idNow clk1 clk2 u date title).2.repo = s.repo ∨
    ∃ e, (s.CreateEvent idNow clk1 clk2 u date title).2.repo = (s.repo.Create e).2 := by
  unfold Service.CreateEvent
  simp only [ExistsByUserDateTitle_ok]
  split
  · left; rfl
  · right; exact ⟨_, rfl⟩

/-- The store after `UpdateEvent` is the old one or the result of one `Update`. -/
theorem UpdateEvent_repo (s : Service) (clk : Int) (id : String) (uo : Option Int)
    (dt : Option Int) (tt : Option String) :
    (s.UpdateEvent clk id uo dt tt).2.repo = s.repo ∨
    ∃ e, (s.UpdateEvent clk id uo dt tt).2.repo = (s.repo.Update e).2 := by
  unfold Service.UpdateEvent
  cases s.repo.GetByID id with
  | error err => left; rfl
  | ok x => right; exact ⟨_, rfl⟩

theorem DeleteEvent_repo (s : Service) (id : String) :
    (s.DeleteEvent id).2.repo = (s.repo.Delete id).2 := rfl

/-- Every service call acts on the store as one store call or not at all. -/
theorem apply_repo (s : Service) (op : SvcOp) :
    (s.apply op).repo = s.repo ∨ ∃ mop, (s.apply op).repo = s.repo.apply mop := by
  cases op with
  | CreateEvent idNow clk1 clk2 u date title =>
    rcases CreateEvent_repo s idNow clk1 clk2 u date title with h | ⟨e, h⟩
    · left; exact h
    · right; exact ⟨.Create e, h⟩
  | UpdateEvent clk id uo dt tt =>
    rcases UpdateEvent_repo s clk id uo dt tt with h | ⟨e, h⟩
    · left; exact h
    · right; exact ⟨.Update e, h⟩
  | DeleteEvent id => right; exact ⟨.Delete id, rfl⟩

theorem apply_invariant (m : Memory) (op : MemOp) (hk : m.Keyed) (hi : m.IndexConsistent) :
    (m.apply op).Keyed ∧ (m.apply op).IndexConsistent := by
  cases op with
  | Create e => exact ⟨Keyed_Create m e hk, IndexConsistent_Create m e hi⟩
  | Update e => exact ⟨Keyed_Update m e hk, IndexConsistent_Update m e hk hi⟩
  | Delete id => exact ⟨Keyed_Delete m id hk, IndexConsistent_Delete m id hi⟩

/-- The store of every service state reached from an empty store is keyed
by event id and index consistent. -/
theorem service_run_invariant (ops : List SvcOp) (s : Service) (hk : s.repo.Keyed)
    (hi : s.repo.IndexConsistent) :
    (s.run ops).repo.Keyed ∧ (s.run ops).repo.IndexConsistent := by
  induction ops generalizing s with
  | nil => exact ⟨hk, hi⟩
  | cons op rest ih =>
    have hstep : (s.apply op).repo.Keyed ∧ (s.apply op).repo.IndexConsistent := by
      rcases apply_repo s op with h | ⟨mop, h⟩
      · rw [h]; exact ⟨hk, hi⟩
      · rw [h]; exact apply_invariant s.repo mop hk hi
    exact ih (s.apply op) hstep.1 hstep.2

theorem reachable_invariant (seed : Int) (ops : List SvcOp) :
    ((NewService seed).run ops).repo.Keyed ∧
      ((NewService seed).run ops).repo.IndexConsistent :=
  service_run_invariant ops (NewService seed) Keyed_new IndexConsistent_new

/-! ## Creating and reading back -/

/-- A successful `CreateEvent` returns the event it built and stores it with
one `Create` on a store that did not hold its id. -/
theorem CreateEvent_ok (s : Service) (idNow clk1 clk2 u date : Int) (title : String)
    (e : Event) (s' : Service)
    (h : s.CreateEvent idNow clk1 clk2 u date title = (.ok e, s')) :
    e = { ID := (newID idNow s.counter).1, UserID := u, Date := Truncate24h (UTC date),
          Title := title, Created := UTC clk1, Updated := UTC clk2 } ∧
    s.repo.byID.get e.ID = none ∧
    s'.repo = { byID := s.repo.byID.set e.ID e,
                byUserDate := indexInsert s.repo.byUserDate e.UserID (dateKey e.Date) e.ID } := by
  unfold Service.CreateEvent at h
  simp only [ExistsByUserDateTitle_ok] at h
  split at h
  · cases h
  · unfold Memory.Create at h
    simp only at h
    split at h
    · cases h
    · rename_i hget
      simp only [Prod.mk.injEq, Except.ok.injEq] at h
      obtain ⟨he, hs⟩ := h
      subst he
      subst hs
      exact ⟨rfl, hget, rfl⟩

theorem removeKey_of_get_none {κ ν : Type} [DecidableEq κ] (l : List (κ × ν)) (k : κ)
    (h : lookupKey l k = none) : removeKey l k = l := by
  induction l with
  | nil => rfl
  | cons p r ih =>
    obtain ⟨k₀, v⟩ := p
    unfold lookupKey at h
    split at h
    · cases h
    · rename_i hne
      unfold removeKey at ih ⊢
      rw [List.filter_cons_of_pos (by simpa using hne), ih h]

/-- Setting a key that is not in the map adds one value in front. -/
theorem values_set_of_get_none {κ ν : Type} [DecidableEq κ] (m : GoMap κ ν) (k : κ) (v : ν)
    (h : m.get k = none) : (m.set k v).values = v :: m.values := by
  unfold GoMap.set GoMap.values
  simp only [List.map_cons]
  rw [removeKey_of_get_none m.entries k h]

/-- In a keyed store an event whose id is not a key is not among the values. -/
theorem not_mem_values_of_get_none (m : Memory) (hk : m.Keyed) (e : Event)
    (h : m.byID.get e.ID = none) : e ∉ m.byID.values := by
  intro hmem
  obtain ⟨⟨id, e'⟩, hp, rfl⟩ := List.mem_map.mp hmem
  have hget := (GoMap.get_eq_some_iff m.byID id e').mpr hp
  have := hk id e' hget
  simp only at h this
  rw [this, hget] at h
  cases h

/-- C10. Round trip: whenever `CreateEvent(u, d, t)` succeeds and returns
`e`, an immediately following `GetByID(e.ID)` succeeds and returns `e`, whose
`UserID` is `u`, whose `Title` is `t` and whose `Date` is `d` converted to UTC
and truncated to midnight of its day. -/
theorem create_get_roundtrip (s : Service) (idNow clk1 clk2 u date : Int) (title : String)
    (e : Event) (s' : Service)
    (h : s.CreateEvent idNow clk1 clk2 u date title = (.ok e, s')) :
    s'.repo.GetByID e.ID = .ok e ∧ e.UserID = u ∧ e.Title = title ∧
      e.Date = Truncate24h (UTC date) ∧ e.Date = utcDay date * nsPerDay := by
  obtain ⟨he, -, hs⟩ := CreateEvent_ok s idNow clk1 clk2 u date title e s' h
  refine ⟨?_, by rw [he], by rw [he], by rw [he], by rw [he]; exact Truncate24h_eq _⟩
  unfold Memory.GetByID
  rw [hs]
  simp only [GoMap.get_set_self]

/-- C3. For every store state reached through service operations, if
`CreateEvent(u, d, t)` succeeds and returns `e`, then `EventsForDay(u, d)`
returns a list that contains `e` exactly once; when the store was empty
before the call the list is exactly `[e]`. -/
theorem create_then_day (seed : Int) (ops : List SvcOp) (idNow clk1 clk2 u date : Int)
    (title : String) (e : Event) (s' : Service)
    (h : ((NewService seed).run ops).CreateEvent idNow clk1 clk2 u date title = (.ok e, s')) :
    ∃ res, s'.EventsForDay u date = .ok res ∧ res.count e = 1 ∧
      (((NewService seed).run ops).repo.byID.len = 0 → res = [e]) := by
  obtain ⟨hk, hi⟩ := reachable_invariant seed ops
  obtain ⟨he, hnone, hs⟩ := CreateEvent_ok _ idNow clk1 clk2 u date title e s' h
  have hi' : s'.repo.IndexConsistent := by
    have := IndexConsistent_Create ((NewService seed).run ops).repo e hi
    unfold Memory.Create at this
    rw [hnone] at this
    rw [hs]
    exact this
  have hperm := ListForDate_perm s'.repo hi' u (Truncate24h (UTC date))
  have hres : s'.EventsForDay u date = .ok (sortSlice
      (fun a b => Time.Before a.Created b.Created)
      (s'.repo.eventsOf (bucket s'.repo.byUserDate u
        (dateKey (Truncate24h (UTC date)))))) := rfl
  have hP : (decide (e.UserID = u ∧ utcDay e.Date = utcDay (Truncate24h (UTC date)))) = true := by
    rw [he]; simp
  have hvals : s'.repo.byID.values = e :: ((NewService seed).run ops).repo.byID.values := by
    rw [hs]
    exact values_set_of_get_none _ _ _ hnone
  rw [hvals, List.filter_cons_of_pos (p := fun x : Event => decide (x.UserID = u ∧
    utcDay x.Date = utcDay (Truncate24h (UTC date)))) hP] at hperm
  refine ⟨_, hres, ?_, ?_⟩
  · rw [hperm.count_eq, List.count_cons_self, List.count_eq_zero_of_not_mem]
    intro hmem
    exact not_mem_values_of_get_none _ hk e hnone (List.mem_filter.mp hmem).1
  · intro hempty
    have hnil : ((NewService seed).run ops).repo.byID.values = [] := by
      rw [GoMap.eq_empty_of_len _ hempty]; rfl
    rw [hnil] at hperm
    exact List.perm_singleton.mp hperm

/-- C9. For every stored event `x` and every combination of optional
arguments, `UpdateEvent(x.ID, userID?, date?, title?)` succeeds, and it stores
and returns an event whose `ID` and `Created` are those of `x`, in which each
field whose argument was omitted equals the value in `x`, each field whose
argument was provided equals the provided value (the date truncated to UTC
midnight), and `Updated` is the clock reading taken during the call. -/
theorem update_frame (s : Service) (x : Event) (hx : s.repo.byID.get x.ID = some x)
    (clk : Int) (userID : Option Int) (date : Option Int) (title : Option String) :
    ∃ e s', s.UpdateEvent clk x.ID userID date title = (.ok e, s') ∧
      s'.repo.byID.get x.ID = some e ∧
      e.ID = x.ID ∧ e.Created = x.Created ∧
      e.UserID = userID.getD x.UserID ∧
      e.Date = (date.map (fun d => Truncate24h (UTC d))).getD x.Date ∧
      e.Title = title.getD x.Title ∧
      e.Updated = UTC clk := by
  have hget : s.repo.GetByID x.ID = .ok x := by
    unfold Memory.GetByID; rw [hx]
  unfold Service.UpdateEvent
  rw [hget]
  simp only
  cases userID <;> cases date <;> cases title <;>
    simp only [Memory.Update, hx, Option.getD, Option.map] <;>
    exact ⟨_, _, rfl, GoMap.get_set_self _ _ _, rfl, rfl, rfl, rfl, rfl, rfl⟩

/-! ## Week and month views -/

theorem mondayOf_facts (d : Int) :
    Weekday (mondayOf d) = 1 ∧ mondayOf d % nsPerDay = 0 ∧ mondayOf d ≤ d ∧
      d < mondayOf d + 7 * nsPerDay := by
  unfold mondayOf Weekday utcDay Truncate24h nsPerDay
  omega

theorem mondayOf_same_week (d d' : Int) (h1 : mondayOf d ≤ d')
    (h2 : d' < mondayOf d + 7 * nsPerDay) : mondayOf d' = mondayOf d := by
  unfold mondayOf Weekday utcDay Truncate24h nsPerDay at *
  omega

/-- The week view queries the range from the Monday of the week of `d` to the
next Monday. -/
theorem EventsForWeek_eq (fuel : Nat) (s : Service) (u d : Int) :
    s.EventsForWeek fuel u d =
      s.repo.ListForRange fuel u (mondayOf d) (mondayOf d + 7 * nsPerDay) := by
  unfold Service.EventsForWeek
  simp only [AddDate_days, UTC]
  have h : Truncate24h d + -((Weekday (Truncate24h d) + 6) % 7) * nsPerDay = mondayOf d := by
    unfold mondayOf; ring
  rw [h]

theorem dayCount_week (t : Int) : dayCount t (t + 7 * nsPerDay) = 7 := by
  unfold dayCount nsPerDay; omega

/-- C4. For every user `u`, every date `d` and every store state reached
through service operations, `EventsForWeek(u, d)` (run with enough fuel for
the day loop) returns, each exactly once, precisely the stored events of `u`
whose date lies from the Monday (00:00 UTC) of the week containing `d` up to,
not including, the next Monday.  That start `mondayOf d` is `d` at midnight
minus `(weekday(d) + 6) mod 7` days; it is a Monday at midnight with
`monday <= d < monday + 7 days`.  Two dates in the same week give the same
result. -/
theorem EventsForWeek_spec (seed : Int) (ops : List SvcOp) (u d : Int) (fuel : Nat)
    (hfuel : 7 < fuel) :
    Weekday (mondayOf d) = 1 ∧ mondayOf d % nsPerDay = 0 ∧ mondayOf d ≤ d ∧
      d < mondayOf d + 7 * nsPerDay ∧
    (∃ res, ((NewService seed).run ops).EventsForWeek fuel u d = some (.ok res) ∧
      res.Perm (((NewService seed).run ops).repo.byID.values.filter (fun e =>
        decide (e.UserID = u ∧ mondayOf d ≤ e.Date ∧ e.Date < mondayOf d + 7 * nsPerDay)))) ∧
    (∀ d', mondayOf d ≤ d' → d' < mondayOf d + 7 * nsPerDay →
      ((NewService seed).run ops).EventsForWeek fuel u d' =
        ((NewService seed).run ops).EventsForWeek fuel u d) := by
  obtain ⟨hw, hm, hle, hlt⟩ := mondayOf_facts d
  refine ⟨hw, hm, hle, hlt, ?_, ?_⟩
  · obtain ⟨-, hi⟩ := reachable_invariant seed ops
    have hm7 : (mondayOf d + 7 * nsPerDay) % nsPerDay = 0 := by
      unfold nsPerDay at hm ⊢; omega
    have hperm := ListForRange_perm _ hi u (mondayOf d) (mondayOf d + 7 * nsPerDay) hm hm7
    have hres := ListForRange_eq ((NewService seed).run ops).repo u (mondayOf d)
      (mondayOf d + 7 * nsPerDay) fuel (by rw [dayCount_week]; exact hfuel)
    refine ⟨_, by rw [EventsForWeek_eq]; exact hres, ?_⟩
    refine hperm.trans ?_
    rw [filter_congr_pred]
    intro e
    apply decide_eq_decide.mpr
    unfold Truncate24h
    unfold nsPerDay at hm ⊢
    constructor
    · rintro ⟨h1, h2, h3⟩
      exact ⟨h1, by omega, by omega⟩
    · rintro ⟨h1, h2, h3⟩
      exact ⟨h1, by omega, by omega⟩
  · intro d' h1 h2
    rw [EventsForWeek_eq, EventsForWeek_eq, mondayOf_same_week d d' h1 h2]

/-- The days of a month are exactly the day numbers from its first day up to
the first day of the next month. -/
theorem month_range_iff (y m z : Int) (hm0 : 1 ≤ m) (hm1 : m ≤ 12) :
    (daysFromCivil y m 1 ≤ z ∧ z < daysFromCivil y m 1 + daysIn y m) ↔
      ((civilFromDays z).year = y ∧ (civilFromDays z).month = m) := by
  constructor
  · rintro ⟨h1, h2⟩
    have hz : daysFromCivil y m (1 + (z - daysFromCivil y m 1)) = z := by
      rw [daysFromCivil_add]; omega
    have hc := civilFromDays_daysFromCivil y m (1 + (z - daysFromCivil y m 1)) hm0 hm1
      (by omega) (by omega)
    rw [hz] at hc
    rw [hc]
    exact ⟨rfl, rfl⟩
  · rintro ⟨hy, hmm⟩
    obtain ⟨-, -, hd0, hd1⟩ := civilFromDays_valid z
    have hz := daysFromCivil_civilFromDays z
    rw [hy, hmm] at hz hd1
    have hadd := daysFromCivil_add y m 1 ((civilFromDays z).day - 1)
    have he : 1 + ((civilFromDays z).day - 1) = (civilFromDays z).day := by omega
    rw [he, hz] at hadd
    omega

theorem daysIn_pos (y m : Int) : 28 ≤ daysIn y m := by
  unfold daysIn; split_ifs <;> omega

/-- The civil date of the first of a month built by `goDate`. -/
theorem civil_goDate_first (y m : Int) (hm0 : 1 ≤ m) (hm1 : m ≤ 12) :
    civilFromDays (utcDay (goDate y m 1 0)) = { year := y, month := m, day := 1 } := by
  rw [goDate_valid_month y m 1 0 hm0 hm1, Int.add_zero, utcDay_mul]
  exact civilFromDays_daysFromCivil y m 1 hm0 hm1 (by omega) (by have := daysIn_pos y m; omega)

/-- The month after month `m` of year `y`: the year rolls over after December. -/
theorem civil_goDate_next (y m : Int) (hm0 : 1 ≤ m) (hm1 : m ≤ 12) :
    civilFromDays (utcDay (goDate y (m + 1) 1 0)) =
      if m = 12 then { year := y + 1, month := 1, day := 1 }
      else { year := y, month := m + 1, day := 1 } := by
  by_cases h12 : m = 12
  · subst h12
    have : goDate y (12 + 1) 1 0 = goDate (y + 1) 1 1 0 := by
      unfold goDate; norm_num
    rw [this, civil_goDate_first (y + 1) 1 (by omega) (by omega)]
    simp
  · rw [if_neg h12]
    exact civil_goDate_first y (m + 1) (by omega) (by omega)

/-- The month view queries the range from the first of the month of `d` to
the first of the next month. -/
theorem EventsForMonth_eq (fuel : Nat) (s : Service) (u d : Int) :
    s.EventsForMonth fuel u d =
      s.repo.ListForRange fuel u (goDate (yearOf d) (monthOf d) 1 0)
        (goDate (yearOf d) (monthOf d + 1) 1 0) := by
  obtain ⟨hm0, hm1, -, -⟩ := civilFromDays_valid (utcDay d)
  unfold Service.EventsForMonth
  simp only [UTC, utcDay_Truncate24h]
  unfold AddDate
  rw [civil_goDate_first _ _ hm0 hm1]
  have hclk : utcClock (goDate (civilFromDays (utcDay d)).year
      (civilFromDays (utcDay d)).month 1 0) = 0 := by
    rw [goDate_valid_month _ _ 1 0 hm0 hm1, Int.add_zero, utcClock_mul]
  simp only [hclk, Int.add_zero]
  rfl

/-- C5. For every user `u`, every date `d` and every store state reached
through service operations, `EventsForMonth(u, d)` (run with enough fuel for
the day loop) returns, each exactly once, precisely the stored events of `u`
whose date has the same UTC year and month as `d`.  The range it queries
starts at midnight of the first day of the month of `d` and ends, `daysIn`
(28, 29, 30 or 31) days later, at the first day of the next month, which
after December is the first of January of the next year. -/
theorem EventsForMonth_spec (seed : Int) (ops : List SvcOp) (u d : Int) (fuel : Nat)
    (hfuel : 31 < fuel) :
    ∃ first next res,
      ((NewService seed).run ops).EventsForMonth fuel u d =
        ((NewService seed).run ops).repo.ListForRange fuel u first next ∧
      first % nsPerDay = 0 ∧
      civilFromDays (utcDay first) = { year := yearOf d, month := monthOf d, day := 1 } ∧
      next = first + daysIn (yearOf d) (monthOf d) * nsPerDay ∧
      civilFromDays (utcDay next) =
        (if monthOf d = 12 then { year := yearOf d + 1, month := 1, day := 1 }
         else { year := yearOf d, month := monthOf d + 1, day := 1 }) ∧
      ((NewService seed).run ops).EventsForMonth fuel u d = some (.ok res) ∧
      res.Perm (((NewService seed).run ops).repo.byID.values.filter (fun e =>
        decide (e.UserID = u ∧ yearOf e.Date = yearOf d ∧ monthOf e.Date = monthOf d))) := by
  obtain ⟨hm0', hm1', -, -⟩ := civilFromDays_valid (utcDay d)
  have hm0 : 1 ≤ monthOf d := hm0'
  have hm1 : monthOf d ≤ 12 := hm1'
  obtain ⟨-, hi⟩ := reachable_invariant seed ops
  have hfirst : goDate (yearOf d) (monthOf d) 1 0 =
      daysFromCivil (yearOf d) (monthOf d) 1 * nsPerDay := by
    rw [goDate_valid_month _ _ 1 0 hm0 hm1, Int.add_zero]
  have hnext := goDate_next_month (yearOf d) (monthOf d) hm0 hm1
  have hlen0 := daysIn_pos (yearOf d) (monthOf d)
  have hlen1 := daysIn_le (yearOf d) (monthOf d)
  have hf0 : goDate (yearOf d) (monthOf d) 1 0 % nsPerDay = 0 := by
    rw [hfirst]; exact Int.mul_emod_left _ _
  have hn0 : goDate (yearOf d) (monthOf d + 1) 1 0 % nsPerDay = 0 := by
    rw [hnext, hfirst, ← Int.add_mul]; exact Int.mul_emod_left _ _
  have hcount : dayCount (goDate (yearOf d) (monthOf d) 1 0)
      (goDate (yearOf d) (monthOf d + 1) 1 0) < fuel := by
    rw [hnext]
    unfold dayCount nsPerDay
    omega
  have hperm := ListForRange_perm _ hi u _ _ hf0 hn0
  have hres := ListForRange_eq ((NewService seed).run ops).repo u _ _ fuel hcount
  refine ⟨_, _, _, EventsForMonth_eq fuel _ u d, hf0, civil_goDate_first _ _ hm0 hm1, hnext,
    civil_goDate_next _ _ hm0 hm1, by rw [EventsForMonth_eq]; exact hres, ?_⟩
  refine hperm.trans ?_
  rw [filter_congr_pred]
  intro e
  apply decide_eq_decide.mpr
  have key := month_range_iff (yearOf d) (monthOf d) (utcDay e.Date) hm0 hm1
  have hiff : (goDate (yearOf d) (monthOf d) 1 0 ≤ Truncate24h e.Date ∧
      Truncate24h e.Date < goDate (yearOf d) (monthOf d + 1) 1 0) ↔
      (daysFromCivil (yearOf d) (monthOf d) 1 ≤ utcDay e.Date ∧
        utcDay e.Date < daysFromCivil (yearOf d) (monthOf d) 1 + daysIn (yearOf d) (monthOf d)) := by
    rw [hnext, hfirst, Truncate24h_eq, ← Int.add_mul]
    have hpos := nsPerDay_pos
    constructor
    · rintro ⟨h1, h2⟩
      exact ⟨le_of_mul_le_mul_right h1 hpos, lt_of_mul_lt_mul_right h2 (le_of_lt hpos)⟩
    · rintro ⟨h1, h2⟩
      exact ⟨mul_le_mul_of_nonneg_right h1 (le_of_lt hpos), mul_lt_mul_of_pos_right h2 hpos⟩
  rw [hiff, key]
  rfl

/-! ## Event ids -/

theorem byteChar_digit (n : Nat) : byteChar (48 + Int.tmod (n : Int) 10) = digitChar n := by
  unfold byteChar digitChar
  have h1 : Int.tmod (n : Int) 10 = ((n % 10 : Nat) : Int) := by
    rw [Int.tmod_eq_emod (by omega) (by omega)]; omega
  rw [h1]
  have h2 : ((48 + ((n % 10 : Nat) : Int)) % 256).toNat = 48 + n % 10 := by omega
  rw [h2]

/-- On a non-negative number the digit loop of `itoa` is the decimal digit loop. -/
theorem itoaLoop_eq (fuel n : Nat) (buf : List Char) :
    itoaLoop fuel (n : Int) buf = natDigitsAux fuel n buf := by
  induction fuel generalizing n buf with
  | zero => rfl
  | succ f ih =>
    unfold itoaLoop natDigitsAux
    simp only [byteChar_digit]
    have hdiv : Int.tdiv (n : Int) 10 = ((n / 10 : Nat) : Int) := by
      rw [Int.tdiv_eq_ediv (by omega) (by omega)]; omega
    rw [hdiv]
    by_cases hn : n < 10
    · have h0 : ((n / 10 : Nat) : Int) = 0 := by omega
      simp [hn, h0]
    · have h0 : ¬ ((n / 10 : Nat) : Int) = 0 := by omega
      simp only [hn, h0, if_false]
      exact ih (n / 10) _

/-- For a counter that is not the least `int64`, `itoa` writes an optional
minus sign and the decimal digits; reading them back gives the counter, and
no colon is written. -/
theorem itoa_spec (c : Int) (h0 : -9223372036854775808 < c) (h1 : c < 9223372036854775808) :
    parseInt (itoa c).data = c ∧ ':' ∉ (itoa c).data := by
  have hw : wrapInt64 (-c) = -c := by unfold wrapInt64; omega
  have hlt : c.natAbs < 10 ^ (19 + 1) := by
    have : c.natAbs < 9223372036854775808 := by omega
    exact Nat.lt_trans this (by norm_num)
  obtain ⟨D, hD, hne, hchars, hfold⟩ := natDigitsAux_spec 19 c.natAbs [] hlt
  have hval : parseNat D = c.natAbs := by
    unfold parseNat; rw [hfold 0]; simp
  rw [List.append_nil] at hD
  unfold itoa
  by_cases hneg : c < 0
  · have hcast : (-c) = ((c.natAbs : Nat) : Int) := by omega
    simp only [hneg, decide_True, if_true, hw]
    rw [hcast, itoaLoop_eq, hD]
    constructor
    · show parseInt ('-' :: D) = c
      have : parseInt ('-' :: D) = -(parseNat D : Int) := rfl
      rw [this, hval]; omega
    · intro hmem
      rcases List.mem_cons.mp hmem with h | h
      · exact absurd h (by decide)
      · exact (hchars _ h).2 rfl
  · have hcast : c = ((c.natAbs : Nat) : Int) := by omega
    simp only [hneg, decide_False, Bool.false_eq_true, if_false]
    rw [hcast, itoaLoop_eq, hD]
    constructor
    · show parseInt D = _
      rw [parseInt_of_not_minus D, hval]
      intro r hr
      exact (hchars '-' (by rw [hr]; exact List.mem_cons_self _ _)).1 rfl
    · intro hmem
      exact (hchars _ hmem).2 rfl

/-- The part after the last colon determines a string with a colon. -/
theorem after_colon_unique (a b x y : List Char) (hx : ':' ∉ x) (hy : ':' ∉ y)
    (h : a ++ ':' :: x = b ++ ':' :: y) : x = y := by
  induction a generalizing b with
  | nil =>
    cases b with
    | nil => exact (List.cons.inj h).2
    | cons c t =>
      have h2 := (List.cons.inj h).2
      exact absurd (by rw [h2]; simp) hx
  | cons c t ih =>
    cases b with
    | nil =>
      have h2 := (List.cons.inj h).2
      exact absurd (by rw [← h2]; simp) hy
    | cons c' t' => exact ih t' (List.cons.inj h).2

/-- Ids built from different counters differ, whatever the clock readings. -/
theorem idOf_ne (now now' c c' : Int) (h0 : -9223372036854775808 < c)
    (h1 : c < 9223372036854775808) (h0' : -9223372036854775808 < c')
    (h1' : c' < 9223372036854775808) (hne : c ≠ c') : idOf now c ≠ idOf now' c' := by
  intro h
  obtain ⟨hp, hc⟩ := itoa_spec c h0 h1
  obtain ⟨hp', hc'⟩ := itoa_spec c' h0' h1'
  have hd := congrArg String.data h
  unfold idOf at hd
  simp only [String.data_append] at hd
  rw [List.append_assoc, List.append_assoc, List.singleton_append,
    List.singleton_append] at hd
  have := after_colon_unique _ _ _ _ hc hc' hd
  apply hne
  rw [← hp, ← hp', this]

theorem newID_eq (now counter : Int) :
    newID now counter = (idOf now (wrapInt64 (counter + 1)), wrapInt64 (counter + 1)) := rfl

theorem wrapInt64_of_range (n : Int) (h0 : -9223372036854775808 ≤ n)
    (h1 : n < 9223372036854775808) : wrapInt64 n = n := by
  unfold wrapInt64; omega

theorem Create_keys (m : Memory) (e : Event) (id : String)
    (h : ((m.Create e).2.byID.get id).isSome = true) :
    (m.byID.get id).isSome = true ∨ id = e.ID := by
  unfold Memory.Create at h
  split at h
  · left; exact h
  · simp only [GoMap.get_set] at h
    by_cases hid : id = e.ID
    · right; exact hid
    · left; simpa [hid] using h

theorem Update_keys (m : Memory) (e : Event) (id : String)
    (h : ((m.Update e).2.byID.get id).isSome = true) : (m.byID.get id).isSome = true := by
  unfold Memory.Update at h
  split at h
  · exact h
  · rename_i old hold
    simp only [GoMap.get_set] at h
    by_cases hid : id = e.ID
    · rw [hid, hold]; rfl
    · simpa [hid] using h

theorem Delete_keys (m : Memory) (id' : String) (id : String)
    (h : ((m.Delete id').2.byID.get id).isSome = true) : (m.byID.get id).isSome = true := by
  unfold Memory.Delete at h
  split at h
  · exact h
  · simp only [GoMap.get_delete] at h
    by_cases hid : id = id'
    · simp [hid] at h
    · simpa [hid] using h

/-- The state after `CreateEvent`: unchanged on a duplicate; otherwise the
counter is incremented and one `Create` of an event with the new id is made. -/
theorem CreateEvent_state (s : Service) (idNow clk1 clk2 u date : Int) (title : String) :
    (s.CreateEvent idNow clk1 clk2 u date title).2 = s ∨
    ∃ e, e.ID = idOf idNow (wrapInt64 (s.counter + 1)) ∧
      (s.CreateEvent idNow clk1 clk2 u date title).2 =
        { repo := (s.repo.Create e).2, counter := wrapInt64 (s.counter + 1) } := by
  unfold Service.CreateEvent
  simp only [ExistsByUserDateTitle_ok, newID_eq]
  split
  · left; rfl
  · right; exact ⟨_, rfl, rfl⟩

theorem UpdateEvent_counter (s : Service) (clk : Int) (id : String) (uo : Option Int)
    (dt : Option Int) (tt : Option String) :
    (s.UpdateEvent clk id uo dt tt).2.counter = s.counter := by
  unfold Service.UpdateEvent
  cases s.repo.GetByID id <;> rfl

/-- One service call keeps the ids below the counter, as long as the counter
does not overflow. -/
theorem apply_IdsBelow (lo : Int) (s : Service) (op : SvcOp)
    (hlo : -9223372036854775808 ≤ lo) (hc : s.counter + 1 < 9223372036854775808)
    (h : s.IdsBelow lo) :
    (s.apply op).IdsBelow lo ∧ (s.apply op).counter ≤ s.counter + 1 := by
  obtain ⟨hlc, hids⟩ := h
  have hw : wrapInt64 (s.counter + 1) = s.counter + 1 :=
    wrapInt64_of_range _ (by omega) hc
  cases op with
  | CreateEvent idNow clk1 clk2 u date title =>
    show (s.CreateEvent idNow clk1 clk2 u date title).2.IdsBelow lo ∧
      (s.CreateEvent idNow clk1 clk2 u date title).2.counter ≤ s.counter + 1
    rcases CreateEvent_state s idNow clk1 clk2 u date title with h1 | ⟨e, he, h1⟩
    · rw [h1]; exact ⟨⟨hlc, hids⟩, by omega⟩
    · rw [h1, hw]
      refine ⟨⟨by show lo ≤ s.counter + 1; omega, ?_⟩, le_refl _⟩
      intro id hid
      rcases Create_keys _ _ id hid with h2 | h2
      · obtain ⟨now, c, hc1, hc2, hid'⟩ := hids id h2
        exact ⟨now, c, hc1, by show c ≤ s.counter + 1; omega, hid'⟩
      · rw [hw] at he
        exact ⟨idNow, s.counter + 1, by omega, le_refl _, by rw [h2, he]⟩
  | UpdateEvent clk id uo dt tt =>
    show (s.UpdateEvent clk id uo dt tt).2.IdsBelow lo ∧
      (s.UpdateEvent clk id uo dt tt).2.counter ≤ s.counter + 1
    have hcnt := UpdateEvent_counter s clk id uo dt tt
    refine ⟨⟨by rw [hcnt]; exact hlc, ?_⟩, by rw [hcnt]; omega⟩
    intro id' hid
    rw [hcnt]
    rcases UpdateEvent_repo s clk id uo dt tt with h1 | ⟨e, h1⟩
    · rw [h1] at hid; exact hids id' hid
    · rw [h1] at hid; exact hids id' (Update_keys _ _ id' hid)
  | DeleteEvent id =>
    show (s.DeleteEvent id).2.IdsBelow lo ∧ (s.DeleteEvent id).2.counter ≤ s.counter + 1
    have hcnt : (s.DeleteEvent id).2.counter = s.counter := rfl
    refine ⟨⟨by rw [hcnt]; exact hlc, ?_⟩, by rw [hcnt]; omega⟩
    intro id' hid
    rw [hcnt]
    exact hids id' (Delete_keys _ _ id' hid)

/-- A run of service calls keeps the ids below the counter, as long as the
counter cannot overflow during the run. -/
theorem run_IdsBelow (lo : Int) (ops : List SvcOp) (s : Service)
    (hlo : -9223372036854775808 ≤ lo)
    (hc : s.counter + ops.length < 9223372036854775808) (h : s.IdsBelow lo) :
    (s.run ops).IdsBelow lo ∧ (s.run ops).counter ≤ s.counter + ops.length := by
  induction ops generalizing s with
  | nil => exact ⟨h, by simp [Service.run]⟩
  | cons op rest ih =>
    simp only [List.length_cons, Nat.cast_add, Nat.cast_one] at hc ⊢
    obtain ⟨h1, h2⟩ := apply_IdsBelow lo s op hlo (by omega) h
    obtain ⟨h3, h4⟩ := ih (s.apply op) (by omega) h1
    exact ⟨h3, by
      have : (s.run (op :: rest)) = (s.apply op).run rest := rfl
      rw [this]; omega⟩

theorem IdsBelow_new (seed : Int) : (NewService seed).IdsBelow seed := by
  refine ⟨le_refl _, ?_⟩
  intro id hid
  simp [NewService, NewMemory, GoMap.get_empty] at hid

/-- The title scan finds a title exactly when an id of the list reads an
event with that title. -/
theorem titleIn_iff (m : Memory) (title : String) (ids : List String) :
    m.titleIn title ids = true ↔
      ∃ id ∈ ids, ((m.byID.get id).getD Event.zero).Title = title := by
  induction ids with
  | nil => simp [Memory.titleIn]
  | cons id rest ih =>
    unfold Memory.titleIn
    by_cases h : ((m.byID.get id).getD Event.zero).Title = title
    · simp [h]
    · simp [h, ih]

/-- Under index consistency `ExistsByUserDateTitle` answers, without error,
whether a stored event has that user, that UTC day and that title. -/
theorem Exists_iff (m : Memory) (hi : m.IndexConsistent) (u date : Int) (title : String) :
    ∃ b, m.ExistsByUserDateTitle u date title = .ok b ∧
      (b = true ↔ ∃ e ∈ m.byID.values,
        e.UserID = u ∧ utcDay e.Date = utcDay date ∧ e.Title = title) := by
  refine ⟨_, rfl, ?_⟩
  rw [titleIn_iff]
  constructor
  · rintro ⟨id, hid, ht⟩
    rw [GoMap.mem_keys_iff] at hid
    have := (hi u (dateKey date) id).mp hid
    obtain ⟨e, he, hu, hd⟩ := this
    rw [he] at ht
    refine ⟨e, List.mem_map.mpr ⟨(id, e), (GoMap.get_eq_some_iff _ _ _).mp he, rfl⟩, hu,
      (dateKey_eq_iff _ _).mp hd, ht⟩
  · rintro ⟨e, he, hu, hd, ht⟩
    obtain ⟨⟨id, e'⟩, hp, rfl⟩ := List.mem_map.mp he
    have hget := (GoMap.get_eq_some_iff m.byID id e').mpr hp
    refine ⟨id, ?_, by rw [hget]; exact ht⟩
    rw [GoMap.mem_keys_iff]
    exact (hi u (dateKey date) id).mpr ⟨e', hget, hu, (dateKey_eq_iff _ _).mpr hd⟩

theorem CreateEvent_of_dup (s : Service) (idNow clk1 clk2 u date : Int) (title : String)
    (h : s.repo.ExistsByUserDateTitle u (Truncate24h (UTC date)) title = .ok true) :
    s.CreateEvent idNow clk1 clk2 u date title = (.error .ErrDuplicate, s) := by
  unfold Service.CreateEvent
  simp only [h, if_true]

theorem CreateEvent_of_new (s : Service) (idNow clk1 clk2 u date : Int) (title : String)
    (h : s.repo.ExistsByUserDateTitle u (Truncate24h (UTC date)) title = .ok false)
    (hid : s.repo.byID.get (idOf idNow (wrapInt64 (s.counter + 1))) = none) :
    ∃ e s', s.CreateEvent idNow clk1 clk2 u date title = (.ok e, s') ∧
      s'.repo = (s.repo.Create e).2 ∧ s.repo.byID.get e.ID = none ∧
      e.UserID = u ∧ e.Date = Truncate24h (UTC date) ∧ e.Title = title := by
  have hc : ∀ e : Event, e.ID = idOf idNow (wrapInt64 (s.counter + 1)) →
      s.repo.Create e = (.ok e, Memory.mk (s.repo.byID.set e.ID e)
        (indexInsert s.repo.byUserDate e.UserID (dateKey e.Date) e.ID)) := by
    intro e he
    unfold Memory.Create
    rw [he, hid]
  refine ⟨Event.mk (idOf idNow (wrapInt64 (s.counter + 1))) u (Truncate24h (UTC date)) title
    (UTC clk1) (UTC clk2),
    Service.mk (s.repo.Create (Event.mk (idOf idNow (wrapInt64 (s.counter + 1))) u
      (Truncate24h (UTC date)) title (UTC clk1) (UTC clk2))).2 (wrapInt64 (s.counter + 1)),
    ?_, rfl, hid, rfl, rfl, rfl⟩
  unfold Service.CreateEvent
  simp only [h, Bool.false_eq_true, if_false, newID_eq]
  rw [hc _ rfl]

/-- C2. For every store state reached from the empty store through service
operations during which the `int64` id counter does not overflow, and every
`(user_id, date, title)` for which no stored event has that user, that UTC
day and that title: `CreateEvent(user_id, date, title)` succeeds, and a second
`CreateEvent` with the identical triple fails with `ErrDuplicate`. -/
theorem create_twice (seed : Int) (ops : List SvcOp)
    (hseed : -9223372036854775808 ≤ seed)
    (hno : seed + ops.length + 1 < 9223372036854775808)
    (u date : Int) (title : String)
    (hnew : ∀ e ∈ ((NewService seed).run ops).repo.byID.values,
      ¬ (e.UserID = u ∧ utcDay e.Date = utcDay date ∧ e.Title = title))
    (idNow clk1 clk2 idNow' clk1' clk2' : Int) :
    ∃ e s', ((NewService seed).run ops).CreateEvent idNow clk1 clk2 u date title = (.ok e, s') ∧
      (s'.CreateEvent idNow' clk1' clk2' u date title).1 = .error .ErrDuplicate := by
  obtain ⟨hk, hi⟩ := reachable_invariant seed ops
  obtain ⟨⟨hlc, hids⟩, hcnt⟩ := run_IdsBelow seed ops (NewService seed) hseed
    (by show seed + _ < _; omega) (IdsBelow_new seed)
  have hcnt' : ((NewService seed).run ops).counter ≤ seed + ops.length := hcnt
  generalize (NewService seed).run ops = s at *
  have hw : wrapInt64 (s.counter + 1) = s.counter + 1 :=
    wrapInt64_of_range _ (by omega) (by omega)
  -- the first call
  have hex : s.repo.ExistsByUserDateTitle u (Truncate24h (UTC date)) title = .ok false := by
    obtain ⟨b, hb, hiff⟩ := Exists_iff s.repo hi u (Truncate24h (UTC date)) title
    rw [hb]
    cases b with
    | false => rfl
    | true =>
      obtain ⟨e, he, h1, h2, h3⟩ := hiff.mp rfl
      rw [UTC, utcDay_Truncate24h] at h2
      exact absurd ⟨h1, h2, h3⟩ (hnew e he)
  have hfresh : s.repo.byID.get (idOf idNow (wrapInt64 (s.counter + 1))) = none := by
    rw [hw]
    cases hg : s.repo.byID.get (idOf idNow (s.counter + 1)) with
    | none => rfl
    | some x =>
      obtain ⟨now, c, hc1, hc2, hid⟩ := hids _ (by rw [hg]; rfl)
      exact absurd hid (idOf_ne _ _ _ _ (by omega) (by omega) (by omega) (by omega) (by omega))
  obtain ⟨e, s', hres, hrepo, hnone, heu, hed, het⟩ :=
    CreateEvent_of_new s idNow clk1 clk2 u date title hex hfresh
  refine ⟨e, s', hres, ?_⟩
  -- the second call
  have hi' : s'.repo.IndexConsistent := by
    rw [hrepo]; exact IndexConsistent_Create s.repo e hi
  have hmem : e ∈ s'.repo.byID.values := by
    rw [hrepo]
    unfold Memory.Create
    simp only [hnone]
    rw [values_set_of_get_none _ _ _ hnone]
    exact List.mem_cons_self _ _
  obtain ⟨b, hb, hiff⟩ := Exists_iff s'.repo hi' u (Truncate24h (UTC date)) title
  have hbt : b = true := hiff.mpr ⟨e, hmem, heu, by rw [hed], het⟩
  rw [hbt] at hb
  rw [CreateEvent_of_dup s' idNow' clk1' clk2' u date title hb]

/-! ## The theorems at the sample data -/

/-- Creating twice, at the sample data. -/
theorem create_twice_witness :
    (-9223372036854775808 ≤ sampleSeed) ∧
    (sampleSeed + (([sampleCreate] : List SvcOp).length : Int) + 1 < 9223372036854775808) ∧
    (∀ e ∈ ((NewService sampleSeed).run [sampleCreate]).repo.byID.values,
      ¬ (e.UserID = 1 ∧ utcDay e.Date = utcDay (sampleDay + 99) ∧ e.Title = "Standup")) ∧
    ∃ e s', ((NewService sampleSeed).run [sampleCreate]).CreateEvent 10 11 12 1
        (sampleDay + 99) "Standup" = (.ok e, s') ∧
      (s'.CreateEvent 20 21 22 1 (sampleDay + 99) "Standup").1 = .error .ErrDuplicate :=
  ⟨by decide, by decide, by decide,
    create_twice sampleSeed [sampleCreate] (by decide) (by decide) 1 (sampleDay + 99) "Standup"
      (by decide) 10 11 12 20 21 22⟩

/-- Creating and listing the day, at the sample data. -/
theorem create_then_day_witness :
    ((NewService sampleSeed).run []).CreateEvent (sampleDay + 5) (sampleDay + 6)
        (sampleDay + 7) 1 sampleDay "Meet" = (.ok sampleEvent, sampleService) ∧
    ∃ res, sampleService.EventsForDay 1 sampleDay = .ok res ∧ res.count sampleEvent = 1 ∧
      (((NewService sampleSeed).run []).repo.byID.len = 0 → res = [sampleEvent]) :=
  ⟨rfl, create_then_day sampleSeed [] (sampleDay + 5) (sampleDay + 6) (sampleDay + 7) 1
    sampleDay "Meet" sampleEvent sampleService rfl⟩

/-- The week view at the sample data. -/
theorem EventsForWeek_spec_witness :
    7 < 8 ∧
    (Weekday (mondayOf (sampleDay + 99)) = 1 ∧ mondayOf (sampleDay + 99) % nsPerDay = 0 ∧
      mondayOf (sampleDay + 99) ≤ sampleDay + 99 ∧
      sampleDay + 99 < mondayOf (sampleDay + 99) + 7 * nsPerDay ∧
    (∃ res, ((NewService sampleSeed).run [sampleCreate]).EventsForWeek 8 1 (sampleDay + 99) =
        some (.ok res) ∧
      res.Perm (((NewService sampleSeed).run [sampleCreate]).repo.byID.values.filter (fun e =>
        decide (e.UserID = 1 ∧ mondayOf (sampleDay + 99) ≤ e.Date ∧
          e.Date < mondayOf (sampleDay + 99) + 7 * nsPerDay)))) ∧
    (∀ d', mondayOf (sampleDay + 99) ≤ d' → d' < mondayOf (sampleDay + 99) + 7 * nsPerDay →
      ((NewService sampleSeed).run [sampleCreate]).EventsForWeek 8 1 d' =
        ((NewService sampleSeed).run [sampleCreate]).EventsForWeek 8 1 (sampleDay + 99))) :=
  ⟨by decide, EventsForWeek_spec sampleSeed [sampleCreate] 1 (sampleDay + 99) 8 (by decide)⟩

/-- The month view at the sample data. -/
theorem EventsForMonth_spec_witness :
    31 < 32 ∧
    ∃ first next res,
      ((NewService sampleSeed).run [sampleCreate]).EventsForMonth 32 1 (sampleDay + 99) =
        ((NewService sampleSeed).run [sampleCreate]).repo.ListForRange 32 1 first next ∧
      first % nsPerDay = 0 ∧
      civilFromDays (utcDay first) =
        { year := yearOf (sampleDay + 99), month := monthOf (sampleDay + 99), day := 1 } ∧
      next = first + daysIn (yearOf (sampleDay + 99)) (monthOf (sampleDay + 99)) * nsPerDay ∧
      civilFromDays (utcDay next) =
        (if monthOf (sampleDay + 99) = 12 then
          { year := yearOf (sampleDay + 99) + 1, month := 1, day := 1 }
         else { year := yearOf (sampleDay + 99), month := monthOf (sampleDay + 99) + 1,
                day := 1 }) ∧
      ((NewService sampleSeed).run [sampleCreate]).EventsForMonth 32 1 (sampleDay + 99) =
        some (.ok res) ∧
      res.Perm (((NewService sampleSeed).run [sampleCreate]).repo.byID.values.filter (fun e =>
        decide (e.UserID = 1 ∧ yearOf e.Date = yearOf (sampleDay + 99) ∧
          monthOf e.Date = monthOf (sampleDay + 99)))) :=
  ⟨by decide, EventsForMonth_spec sampleSeed [sampleCreate] 1 (sampleDay + 99) 32 (by decide)⟩

/-- The range query at the sample data. -/
theorem ListForRange_spec_witness :
    sampleService.repo.IndexConsistent ∧ sampleDay % nsPerDay = 0 ∧
    (sampleDay + 2 * nsPerDay) % nsPerDay = 0 ∧
    dayCount sampleDay (sampleDay + 2 * nsPerDay) < 3 ∧
    ∃ res, sampleService.repo.ListForRange 3 1 sampleDay (sampleDay + 2 * nsPerDay) =
        some (.ok res) ∧
      res.Perm (sampleService.repo.byID.values.filter (fun e =>
        decide (e.UserID = 1 ∧ sampleDay ≤ Truncate24h e.Date ∧
          Truncate24h e.Date < sampleDay + 2 * nsPerDay))) ∧
      (sampleDay + 2 * nsPerDay ≤ sampleDay → res = []) ∧
      ((∀ e ∈ sampleService.repo.byID.values,
        ¬ (e.UserID = 1 ∧ sampleDay ≤ Truncate24h e.Date ∧
          Truncate24h e.Date < sampleDay + 2 * nsPerDay)) → res = []) :=
  ⟨(reachable_invariant sampleSeed [sampleCreate]).2, by decide, by decide, by decide,
    ListForRange_spec sampleService.repo (reachable_invariant sampleSeed [sampleCreate]).2 1
      sampleDay (sampleDay + 2 * nsPerDay) (by decide) (by decide) 3 (by decide)⟩

/-- The order of the range query at the sample data. -/
theorem ListForRange_sorted_witness :
    dayCount sampleDay (sampleDay + 2 * nsPerDay) < 3 ∧
    ∃ res, sampleService.repo.ListForRange 3 1 sampleDay (sampleDay + 2 * nsPerDay) =
        some (.ok res) ∧
      ∀ (i j : Nat) (a b : Event), i < j → res[i]? = some a → res[j]? = some b →
        a.Date ≤ b.Date ∧ (a.Date = b.Date → a.Created ≤ b.Created) :=
  ⟨by decide, ListForRange_sorted sampleService.repo 1 sampleDay (sampleDay + 2 * nsPerDay) 3
    (by decide)⟩

/-- The day query at the sample data. -/
theorem ListForDate_spec_witness :
    sampleService.repo.IndexConsistent ∧
    ∃ res, sampleService.repo.ListForDate 1 (sampleDay + 99) = .ok res ∧
      res.Perm (sampleService.repo.byID.values.filter
        (fun e => decide (e.UserID = 1 ∧ utcDay e.Date = utcDay (sampleDay + 99)))) ∧
      res.Pairwise (fun a b => a.Created ≤ b.Created) :=
  ⟨(reachable_invariant sampleSeed [sampleCreate]).2,
    ListForDate_spec sampleService.repo (reachable_invariant sampleSeed [sampleCreate]).2 1
      (sampleDay + 99)⟩

/-- A title-only update at the sample data. -/
theorem update_frame_witness :
    sampleService.repo.byID.get sampleEvent.ID = some sampleEvent ∧
    ∃ e s', sampleService.UpdateEvent (sampleDay + 50) sampleEvent.ID none none
        (some "Lunch") = (.ok e, s') ∧
      s'.repo.byID.get sampleEvent.ID = some e ∧
      e.ID = sampleEvent.ID ∧ e.Created = sampleEvent.Created ∧
      e.UserID = (none : Option Int).getD sampleEvent.UserID ∧
      e.Date = ((none : Option Int).map (fun d => Truncate24h (UTC d))).getD sampleEvent.Date ∧
      e.Title = (some "Lunch").getD sampleEvent.Title ∧
      e.Updated = UTC (sampleDay + 50) :=
  ⟨by decide, update_frame sampleService sampleEvent (by decide) (sampleDay + 50) none none
    (some "Lunch")⟩

/-- Creating and reading back, at the sample data. -/
theorem create_get_roundtrip_witness :
    (NewService sampleSeed).CreateEvent (sampleDay + 5) (sampleDay + 6) (sampleDay + 7) 1
        (sampleDay + 3) "Meet" = (.ok sampleEvent, sampleService) ∧
    (sampleService.repo.GetByID sampleEvent.ID = .ok sampleEvent ∧ sampleEvent.UserID = 1 ∧
      sampleEvent.Title = "Meet" ∧ sampleEvent.Date = Truncate24h (UTC (sampleDay + 3)) ∧
      sampleEvent.Date = utcDay (sampleDay + 3) * nsPerDay) :=
  ⟨rfl, create_get_roundtrip (NewService sampleSeed) (sampleDay + 5) (sampleDay + 6)
    (sampleDay + 7) 1 (sampleDay + 3) "Meet" sampleEvent sampleService rfl⟩

/-! ## Missing ids and failing calls -/

theorem GetByID_of_none (m : Memory) (id : String) (h : m.byID.get id = none) :
    m.GetByID id = .error .ErrNotFound := by
  unfold Memory.GetByID; rw [h]

theorem GetByID_of_some (m : Memory) (id : String) (x : Event) (h : m.byID.get id = some x) :
    m.GetByID id = .ok x := by
  unfold Memory.GetByID; rw [h]

theorem Delete_of_none (m : Memory) (id : String) (h : m.byID.get id = none) :
    m.Delete id = (.error .ErrNotFound, m) := by
  unfold Memory.Delete; rw [h]

theorem Delete_of_some (m : Memory) (id : String) (x : Event) (h : m.byID.get id = some x) :
    (m.Delete id).1 = .ok () ∧ (m.Delete id).2.byID = m.byID.delete id := by
  unfold Memory.Delete; rw [h]; exact ⟨rfl, rfl⟩

theorem DeleteEvent_fst (s : Service) (id : String) :
    (s.DeleteEvent id).1 = (s.repo.Delete id).1 := rfl

theorem UpdateEvent_of_none (s : Service) (clk : Int) (id : String) (uo : Option Int)
    (dt : Option Int) (tt : Option String) (h : s.repo.byID.get id = none) :
    s.UpdateEvent clk id uo dt tt = (.error .ErrNotFound, s) := by
  unfold Service.UpdateEvent
  rw [GetByID_of_none _ _ h]

/-- C11. For every store state and every id for which no event is stored,
`DeleteEvent(id)`, `UpdateEvent(id, ...)` and `GetByID(id)` each fail with
`ErrNotFound`; and for every stored id, `DeleteEvent(id)` succeeds and a
second `DeleteEvent(id)` then fails with `ErrNotFound`. -/
theorem not_found (s : Service) (id : String) :
    (s.repo.byID.get id = none →
      (s.DeleteEvent id).1 = .error .ErrNotFound ∧
      (∀ (clk : Int) (userID : Option Int) (date : Option Int) (title : Option String),
        (s.UpdateEvent clk id userID date title).1 = .error .ErrNotFound) ∧
      s.repo.GetByID id = .error .ErrNotFound) ∧
    (∀ x, s.repo.byID.get id = some x →
      (s.DeleteEvent id).1 = .ok () ∧
      ((s.DeleteEvent id).2.DeleteEvent id).1 = .error .ErrNotFound) := by
  constructor
  · intro h
    refine ⟨?_, ?_, GetByID_of_none _ _ h⟩
    · rw [DeleteEvent_fst, Delete_of_none _ _ h]
    · intro clk uo dt tt
      rw [UpdateEvent_of_none s clk id uo dt tt h]
  · intro x h
    obtain ⟨h1, h2⟩ := Delete_of_some s.repo id x h
    refine ⟨by rw [DeleteEvent_fst]; exact h1, ?_⟩
    rw [DeleteEvent_fst]
    have hnone : (s.DeleteEvent id).2.repo.byID.get id = none := by
      show (s.repo.Delete id).2.byID.get id = none
      rw [h2, GoMap.get_delete_self]
    rw [Delete_of_none _ _ hnone]

/-- An absent id and then a stored id, at the sample data. -/
theorem not_found_witness :
    ((NewService sampleSeed).repo.byID.get sampleEvent.ID = none ∧
      ((NewService sampleSeed).DeleteEvent sampleEvent.ID).1 = .error .ErrNotFound ∧
      (NewService sampleSeed).repo.GetByID sampleEvent.ID = .error .ErrNotFound) ∧
    (sampleService.repo.byID.get sampleEvent.ID = some sampleEvent ∧
      (sampleService.DeleteEvent sampleEvent.ID).1 = .ok () ∧
      ((sampleService.DeleteEvent sampleEvent.ID).2.DeleteEvent sampleEvent.ID).1 =
        .error .ErrNotFound) :=
  ⟨⟨by decide, ((not_found (NewService sampleSeed) sampleEvent.ID).1 (by decide)).1,
      ((not_found (NewService sampleSeed) sampleEvent.ID).1 (by decide)).2.2⟩,
    ⟨by decide, (not_found sampleService sampleEvent.ID).2 sampleEvent (by decide)⟩⟩

theorem Create_error (m : Memory) (e : Event) (err : Err)
    (h : (m.Create e).1 = .error err) : (m.Create e).2 = m := by
  unfold Memory.Create at h ⊢
  split
  · rfl
  · rename_i hn; rw [hn] at h; cases h

theorem Update_error (m : Memory) (e : Event) (err : Err)
    (h : (m.Update e).1 = .error err) : (m.Update e).2 = m := by
  unfold Memory.Update at h ⊢
  split
  · rfl
  · rename_i old hn; rw [hn] at h; cases h

theorem Delete_error (m : Memory) (id : String) (err : Err)
    (h : (m.Delete id).1 = .error err) : (m.Delete id).2 = m := by
  unfold Memory.Delete at h ⊢
  split
  · rfl
  · rename_i old hn; rw [hn] at h; cases h

theorem CreateEvent_duplicate (s : Service) (idNow clk1 clk2 u date : Int) (title : String)
    (h : (s.CreateEvent idNow clk1 clk2 u date title).1 = .error .ErrDuplicate) :
    (s.CreateEvent idNow clk1 clk2 u date title).2 = s := by
  unfold Service.CreateEvent at h ⊢
  simp only [ExistsByUserDateTitle_ok] at h ⊢
  split
  · rfl
  · rename_i hdup
    rw [if_neg hdup] at h
    simp only [newID_eq] at h
    unfold Memory.Create at h
    simp only at h
    split at h <;> cases h

theorem UpdateEvent_error (s : Service) (clk : Int) (id : String) (uo : Option Int)
    (dt : Option Int) (tt : Option String) (err : Err)
    (h : (s.UpdateEvent clk id uo dt tt).1 = .error err) :
    (s.UpdateEvent clk id uo dt tt).2.repo = s.repo := by
  unfold Service.UpdateEvent at h ⊢
  cases hg : s.repo.GetByID id with
  | error e0 => rfl
  | ok x =>
    rw [hg] at h
    exact Update_error _ _ err h

/-- C20. Failing operations are atomic: whenever `Memory.Create`,
`Memory.Update` or `Memory.Delete` returns an error, whenever
`Service.CreateEvent` returns `ErrDuplicate` and whenever
`Service.UpdateEvent` returns `ErrNotFound`, the store (its `byID` map and
its `byUserDate` index) is exactly what it was before the call. -/
theorem failing_atomic :
    (∀ (m : Memory) (e : Event) (err : Err), (m.Create e).1 = .error err → (m.Create e).2 = m) ∧
    (∀ (m : Memory) (e : Event) (err : Err), (m.Update e).1 = .error err → (m.Update e).2 = m) ∧
    (∀ (m : Memory) (id : String) (err : Err),
      (m.Delete id).1 = .error err → (m.Delete id).2 = m) ∧
    (∀ (s : Service) (idNow clk1 clk2 u date : Int) (title : String),
      (s.CreateEvent idNow clk1 clk2 u date title).1 = .error .ErrDuplicate →
        (s.CreateEvent idNow clk1 clk2 u date title).2.repo = s.repo) ∧
    (∀ (s : Service) (clk : Int) (id : String) (userID : Option Int) (date : Option Int)
      (title : Option String),
      (s.UpdateEvent clk id userID date title).1 = .error .ErrNotFound →
        (s.UpdateEvent clk id userID date title).2.repo = s.repo) := by
  refine ⟨Create_error, Update_error, Delete_error, ?_, ?_⟩
  · intro s idNow clk1 clk2 u date title h
    rw [CreateEvent_duplicate s idNow clk1 clk2 u date title h]
  · intro s clk id uo dt tt h
    exact UpdateEvent_error s clk id uo dt tt _ h

/-- A create with a stored id and a duplicate create, at the sample data. -/
theorem failing_atomic_witness :
    ((sampleService.repo.Create sampleEvent).1 = .error .idAlreadyExists ∧
      (sampleService.repo.Create sampleEvent).2 = sampleService.repo) ∧
    ((sampleService.CreateEvent 1 2 3 1 sampleDay "Meet").1 = .error .ErrDuplicate ∧
      (sampleService.CreateEvent 1 2 3 1 sampleDay "Meet").2.repo = sampleService.repo) :=
  ⟨⟨rfl, failing_atomic.1 sampleService.repo sampleEvent _ rfl⟩,
    ⟨rfl, failing_atomic.2.2.2.1 sampleService 1 2 3 1 sampleDay "Meet" rfl⟩⟩

/-! ## Date normalisation -/

theorem Truncate24h_mod (t : Int) : Truncate24h t % nsPerDay = 0 := by
  unfold Truncate24h nsPerDay; omega

theorem Create_get (m : Memory) (e : Event) (id : String) (x : Event)
    (h : (m.Create e).2.byID.get id = some x) : x = e ∨ m.byID.get id = some x := by
  unfold Memory.Create at h
  split at h
  · right; exact h
  · simp only [GoMap.get_set] at h
    split at h
    · left; cases h; rfl
    · right; exact h

theorem Update_get (m : Memory) (e : Event) (id : String) (x : Event)
    (h : (m.Update e).2.byID.get id = some x) : x = e ∨ m.byID.get id = some x := by
  unfold Memory.Update at h
  split at h
  · right; exact h
  · simp only [GoMap.get_set] at h
    split at h
    · left; cases h; rfl
    · right; exact h

theorem Delete_get (m : Memory) (id' : String) (id : String) (x : Event)
    (h : (m.Delete id').2.byID.get id = some x) : m.byID.get id = some x := by
  unfold Memory.Delete at h
  split at h
  · exact h
  · simp only [GoMap.get_delete] at h
    split at h
    · cases h
    · exact h

/-- The state after `CreateEvent`: unchanged, or one `Create` of an event
that carries the arguments, with the date truncated. -/
theorem CreateEvent_stored (s : Service) (idNow clk1 clk2 u date : Int) (title : String) :
    (s.CreateEvent idNow clk1 clk2 u date title).2.repo = s.repo ∨
    ∃ e, e.UserID = u ∧ e.Date = Truncate24h (UTC date) ∧ e.Title = title ∧
      (s.CreateEvent idNow clk1 clk2 u date title).2.repo = (s.repo.Create e).2 := by
  unfold Service.CreateEvent
  simp only [ExistsByUserDateTitle_ok]
  split
  · left; rfl
  · right; exact ⟨_, rfl, rfl, rfl, rfl⟩

/-- The state after `UpdateEvent`: unchanged, or one `Update` with the event
read under `id`, in which the provided fields are replaced. -/
theorem UpdateEvent_stored (s : Service) (clk : Int) (id : String) (uo : Option Int)
    (dt : Option Int) (tt : Option String) :
    (s.UpdateEvent clk id uo dt tt).2.repo = s.repo ∨
    ∃ x e, s.repo.byID.get id = some x ∧
      e.Date = (dt.map (fun d => Truncate24h (UTC d))).getD x.Date ∧
      e.Title = tt.getD x.Title ∧ e.UserID = uo.getD x.UserID ∧ e.ID = x.ID ∧
      (s.UpdateEvent clk id uo dt tt).2.repo = (s.repo.Update e).2 := by
  cases hg : s.repo.byID.get id with
  | none => left; rw [UpdateEvent_of_none s clk id uo dt tt hg]
  | some x =>
    right
    unfold Service.UpdateEvent
    rw [GetByID_of_some _ _ _ hg]
    refine ⟨x, Event.mk x.ID (uo.getD x.UserID)
      ((dt.map (fun d => Truncate24h (UTC d))).getD x.Date) (tt.getD x.Title) x.Created
      (UTC clk), rfl, rfl, rfl, rfl, rfl, ?_⟩
    cases uo <;> cases dt <;> cases tt <;> rfl

theorem apply_Normalized (s : Service) (op : SvcOp) (h : s.repo.Normalized) :
    (s.apply op).repo.Normalized := by
  cases op with
  | CreateEvent idNow clk1 clk2 u date title =>
    show (s.CreateEvent idNow clk1 clk2 u date title).2.repo.Normalized
    rcases CreateEvent_stored s idNow clk1 clk2 u date title with h1 | ⟨e, -, hd, -, h1⟩
    · rw [h1]; exact h
    · rw [h1]
      intro id x hx
      rcases Create_get _ _ _ _ hx with rfl | hx'
      · rw [hd]; exact Truncate24h_mod _
      · exact h id x hx'
  | UpdateEvent clk id uo dt tt =>
    show (s.UpdateEvent clk id uo dt tt).2.repo.Normalized
    rcases UpdateEvent_stored s clk id uo dt tt with h1 | ⟨x, e, hx, hd, -, -, -, h1⟩
    · rw [h1]; exact h
    · rw [h1]
      intro id' y hy
      rcases Update_get _ _ _ _ hy with rfl | hy'
      · rw [hd]
        cases dt with
        | none => exact h id x hx
        | some d => exact Truncate24h_mod _
      · exact h id' y hy'
  | DeleteEvent id =>
    intro id' y hy
    exact h id' y (Delete_get _ _ _ _ hy)

theorem run_Normalized (ops : List SvcOp) (s : Service) (h : s.repo.Normalized) :
    (s.run ops).repo.Normalized := by
  induction ops generalizing s with
  | nil => exact h
  | cons op rest ih => exact ih (s.apply op) (apply_Normalized s op h)

/-- C12. Date normalisation is an invariant of the service: after any
sequence of `CreateEvent`, `UpdateEvent` and `DeleteEvent` calls on an
initially empty store, with arbitrary input instants, the `Date` of every
stored event is exactly 00:00:00 UTC of some day: it is a whole number of
days since the epoch and equals its own truncation. -/
theorem dates_normalized (seed : Int) (ops : List SvcOp) :
    ∀ e ∈ ((NewService seed).run ops).repo.byID.values,
      e.Date % nsPerDay = 0 ∧ utcClock e.Date = 0 ∧ Truncate24h (UTC e.Date) = e.Date := by
  intro e he
  have hn : ((NewService seed).run ops).repo.Normalized := by
    apply run_Normalized
    intro id x hx
    simp [NewService, NewMemory, GoMap.get_empty] at hx
  obtain ⟨⟨id, e'⟩, hp, rfl⟩ := List.mem_map.mp he
  have h0 := hn id e' ((GoMap.get_eq_some_iff _ _ _).mpr hp)
  refine ⟨h0, h0, ?_⟩
  show Truncate24h e'.Date = e'.Date
  unfold Truncate24h
  rw [h0, Int.sub_zero]

/-! ## Collision-free ids -/

/-- Without overflow, successive `newID` calls use strictly increasing
counter values and return pairwise different ids. -/
theorem newIDs_spec (nows : List Int) :
    ∀ c : Int, -9223372036854775808 ≤ c → c + nows.length < 9223372036854775808 →
      (∀ id ∈ newIDs c nows, ∃ now k, c < k ∧ k ≤ c + nows.length ∧ id = idOf now k) ∧
      (newIDs c nows).Nodup := by
  induction nows with
  | nil =>
    intro c _ _
    exact ⟨fun id hid => absurd hid (List.not_mem_nil id), List.nodup_nil⟩
  | cons now rest ih =>
    intro c hc0 hc1
    simp only [List.length_cons, Nat.cast_add, Nat.cast_one] at hc1 ⊢
    have hw : wrapInt64 (c + 1) = c + 1 := wrapInt64_of_range _ (by omega) (by omega)
    have hstep : newIDs c (now :: rest) = idOf now (c + 1) :: newIDs (c + 1) rest := by
      show (newID now c).1 :: newIDs (newID now c).2 rest = _
      rw [newID_eq, hw]
    obtain ⟨hids, hnd⟩ := ih (c + 1) (by omega) (by omega)
    rw [hstep]
    constructor
    · intro id hid
      rcases List.mem_cons.mp hid with rfl | hid
      · exact ⟨now, c + 1, by omega, by omega, rfl⟩
      · obtain ⟨now', k, hk0, hk1, rfl⟩ := hids id hid
        exact ⟨now', k, by omega, by omega, rfl⟩
    · refine List.nodup_cons.mpr ⟨?_, hnd⟩
      intro hmem
      obtain ⟨now', k, hk0, hk1, he⟩ := hids _ hmem
      exact idOf_ne now now' (c + 1) k (by omega) (by omega) (by omega) (by omega) (by omega) he

/-- C13. Identifiers are collision-free: in any sequence of `newID` calls
during which the `int64` counter does not overflow, every call increases the
counter by one and any two calls return different strings, whatever the clock
readings are, because ids built from different counter values differ.  Hence
in every state reached by service calls without overflow, the id that
`CreateEvent` generates differs from every id already stored. -/
theorem newID_collision_free (seed : Int) (nows : List Int) (ops : List SvcOp) (idNow : Int)
    (hseed : -9223372036854775808 ≤ seed)
    (hnows : seed + nows.length < 9223372036854775808)
    (hops : seed + ops.length + 1 < 9223372036854775808) :
    (newIDs seed nows).Nodup ∧
    (∀ now c : Int, -9223372036854775808 ≤ c → c + 1 < 9223372036854775808 →
      (newID now c).2 = c + 1 ∧ (newID now c).1 = idOf now (c + 1)) ∧
    (∀ now now' c c' : Int, -9223372036854775808 < c → c < 9223372036854775808 →
      -9223372036854775808 < c' → c' < 9223372036854775808 → c ≠ c' →
      idOf now c ≠ idOf now' c') ∧
    ((NewService seed).run ops).repo.byID.get
      (newID idNow ((NewService seed).run ops).counter).1 = none := by
  refine ⟨(newIDs_spec nows seed hseed hnows).2, ?_, ?_, ?_⟩
  · intro now c h0 h1
    rw [newID_eq, wrapInt64_of_range _ (by omega) h1]
    exact ⟨rfl, rfl⟩
  · intro now now' c c' h0 h1 h0' h1' hne
    exact idOf_ne now now' c c' h0 h1 h0' h1' hne
  · obtain ⟨⟨hlc, hids⟩, hcnt⟩ := run_IdsBelow seed ops (NewService seed) hseed
      (by show seed + _ < _; omega) (IdsBelow_new seed)
    have hcnt' : ((NewService seed).run ops).counter ≤ seed + ops.length := hcnt
    generalize (NewService seed).run ops = s at *
    rw [newID_eq, wrapInt64_of_range _ (by omega) (by omega)]
    cases hg : s.repo.byID.get (idOf idNow (s.counter + 1)) with
    | none => rfl
    | some x =>
      obtain ⟨now, c, hc1, hc2, hid⟩ := hids _ (by rw [hg]; rfl)
      exact absurd hid (idOf_ne _ _ _ _ (by omega) (by omega) (by omega) (by omega) (by omega))

/-- Three ids generated within one second, and the next id of the sample service. -/
theorem newID_collision_free_witness :
    (-9223372036854775808 ≤ sampleSeed) ∧
    (sampleSeed + (([sampleDay, sampleDay, sampleDay - 1] : List Int).length : Int) <
      9223372036854775808) ∧
    (sampleSeed + (([sampleCreate] : List SvcOp).length : Int) + 1 < 9223372036854775808) ∧
    (newIDs sampleSeed [sampleDay, sampleDay, sampleDay - 1]).Nodup ∧
    ((NewService sampleSeed).run [sampleCreate]).repo.byID.get
      (newID sampleDay ((NewService sampleSeed).run [sampleCreate]).counter).1 = none :=
  ⟨by decide, by decide, by decide,
    (newID_collision_free sampleSeed [sampleDay, sampleDay, sampleDay - 1] [sampleCreate]
      sampleDay (by decide) (by decide) (by decide)).1,
    (newID_collision_free sampleSeed [sampleDay, sampleDay, sampleDay - 1] [sampleCreate]
      sampleDay (by decide) (by decide) (by decide)).2.2.2⟩

/-! ## Behaviour at the inputs where the code departs from the specification -/

/-- C14, evaluated at a clock whose two readings differ: `CreateEvent`
succeeds and returns an event whose `Created` is the first reading of the
clock and whose `Updated` is the second, so the two are not equal. -/
theorem create_reads_clock_twice :
    (NewService sampleSeed).CreateEvent (sampleDay + 5) (sampleDay + 6) (sampleDay + 7) 1
        sampleDay "Meet" = (.ok sampleEvent, sampleService) ∧
    sampleEvent.Created = UTC (sampleDay + 6) ∧ sampleEvent.Updated = UTC (sampleDay + 7) ∧
    sampleEvent.Created ≠ sampleEvent.Updated :=
  ⟨rfl, by decide, by decide, by decide⟩

/-- C15, evaluated at a create request followed by an update request with
an empty `event` field: both requests are answered with status 200 and the
stored event then has the empty title, which the create handler would have
refused. -/
theorem update_request_empties_title :
    (Handlers.CreateEvent (NewService sampleSeed) (sampleDay + 5) (sampleDay + 6)
        (sampleDay + 7) sampleCreateReq).1 = 200 ∧
    (Handlers.UpdateEvent sampleService (sampleDay + 9) sampleEmptyTitleReq).1 = 200 ∧
    (Handlers.run (NewService sampleSeed)
        [.create_event (sampleDay + 5) (sampleDay + 6) (sampleDay + 7) sampleCreateReq,
         .update_event (sampleDay + 9) sampleEmptyTitleReq]).repo.byID.values =
      [sampleUntitled] ∧
    sampleUntitled.Title = "" ∧
    (Handlers.CreateEvent (NewService sampleSeed) (sampleDay + 5) (sampleDay + 6)
        (sampleDay + 7) { sampleCreateReq with Title := "" }).1 = 400 :=
  ⟨by decide, by decide, by decide, by decide, by decide⟩

/-- C16. The uniqueness of `(user_id, date, title)` is enforced at creation
only: `CreateEvent(1, d, "Meet")`, `CreateEvent(1, d, "Standup")` and
`UpdateEvent` of the second event with title `"Meet"` all succeed on a fresh
service, after which two stored events with different ids share user, date
and title, although `CreateEvent(1, d, "Meet")` then fails with
`ErrDuplicate`. -/
theorem update_makes_duplicate :
    ∃ e1 s1 e2 s2 e3 s3,
      (NewService sampleSeed).CreateEvent (sampleDay + 5) (sampleDay + 6) (sampleDay + 7) 1
        sampleDay "Meet" = (.ok e1, s1) ∧
      s1.CreateEvent (sampleDay + 15) (sampleDay + 16) (sampleDay + 17) 1 sampleDay
        "Standup" = (.ok e2, s2) ∧
      s2.UpdateEvent (sampleDay + 20) e2.ID none none (some "Meet") = (.ok e3, s3) ∧
      s3.repo.byID.get e1.ID = some e1 ∧ s3.repo.byID.get e3.ID = some e3 ∧
      e1.ID ≠ e3.ID ∧ e1.UserID = e3.UserID ∧ e1.Date = e3.Date ∧ e1.Title = e3.Title ∧
      (s3.CreateEvent (sampleDay + 25) (sampleDay + 26) (sampleDay + 27) 1 sampleDay
        "Meet").1 = .error .ErrDuplicate := by
  refine ⟨_, _, _, _, _, _, rfl, rfl, rfl, ?_, ?_, ?_, ?_, ?_, ?_, ?_⟩
  · decide
  · decide
  · decide
  · decide
  · decide
  · decide
  · rfl

/-- C18, evaluated at a store without empty containers that holds one event
of user 1: the `Update` that moves the event to user 2 succeeds and removes
the emptied date bucket, but the container of user 1 stays in the index with
no date bucket in it. -/
theorem update_keeps_empty_user :
    NoEmpty sampleService.repo.byUserDate ∧
    (sampleService.repo.Update sampleMoved).1 = .ok sampleMoved ∧
    ((sampleService.repo.Update sampleMoved).2.byUserDate.get 1).map GoMap.len = some 0 ∧
    ¬ NoEmpty (sampleService.repo.Update sampleMoved).2.byUserDate ∧
    ((sampleService.repo.Delete sampleEvent.ID).2.byUserDate.get 1).map GoMap.len = none :=
  ⟨by decide, rfl, by decide, by decide, by decide⟩

/-! ## Pruning on delete -/

theorem GoMap.len_eq_zero_iff {κ ν : Type} [DecidableEq κ] (m : GoMap κ ν) :
    m.len = 0 ↔ ∀ k, m.get k = none := by
  constructor
  · intro h k
    rw [GoMap.eq_empty_of_len m h]; rfl
  · intro h
    obtain ⟨l, hl⟩ := m
    cases l with
    | nil => rfl
    | cons p r =>
      have := h p.1
      simp [GoMap.get, lookupKey] at this

theorem GoMap.len_ne_zero_of_get {κ ν : Type} [DecidableEq κ] (m : GoMap κ ν) (k : κ) (v : ν)
    (h : m.get k = some v) : m.len ≠ 0 := by
  intro h0
  rw [(GoMap.len_eq_zero_iff m).mp h0 k] at h
  cases h

/-- `NoEmpty` in terms of lookups. -/
theorem NoEmpty_iff_get (idx : GoMap Int (GoMap String IDSet)) :
    NoEmpty idx ↔ ∀ u um, idx.get u = some um →
      um.len ≠ 0 ∧ ∀ dk b, um.get dk = some b → b.len ≠ 0 := by
  unfold NoEmpty
  constructor
  · intro h u um hu
    obtain ⟨h1, h2⟩ := h (u, um) ((GoMap.get_eq_some_iff _ _ _).mp hu)
    exact ⟨h1, fun dk b hb => h2 (dk, b) ((GoMap.get_eq_some_iff _ _ _).mp hb)⟩
  · rintro h ⟨u, um⟩ hp
    obtain ⟨h1, h2⟩ := h u um ((GoMap.get_eq_some_iff _ _ _).mpr hp)
    exact ⟨h1, fun ⟨dk, b⟩ hq => h2 dk b ((GoMap.get_eq_some_iff _ _ _).mpr hq)⟩

/-- An indexed id lies in a bucket that exists at both levels. -/
theorem indexed_get (idx : GoMap Int (GoMap String IDSet)) (u : Int) (dk id : String)
    (h : ((bucket idx u dk).get id).isSome = true) :
    ∃ um b, idx.get u = some um ∧ um.get dk = some b ∧ bucket idx u dk = b := by
  cases hu : idx.get u with
  | none => simp [bucket, userDates, hu, GoMap.get_empty] at h
  | some um =>
    cases hd : um.get dk with
    | none => simp [bucket, userDates, hu, hd, GoMap.get_empty] at h
    | some b => exact ⟨um, b, rfl, hd, by simp [bucket, userDates, hu, hd]⟩

/-- The three index statements of `Delete` keep the index free of empty
containers when the id is in the bucket it is deleted from. -/
theorem prune_NoEmpty (idx : GoMap Int (GoMap String IDSet)) (hne : NoEmpty idx) (u : Int)
    (dk id : String) (um : GoMap String IDSet) (b : IDSet) (hu : idx.get u = some um)
    (hd : um.get dk = some b) :
    NoEmpty (pruneUser (pruneDate (indexDelete idx u dk id) u dk) u) := by
  rw [NoEmpty_iff_get] at hne ⊢
  have h1 : indexDelete idx u dk id = idx.set u (um.set dk (b.delete id)) := by
    unfold indexDelete; rw [hu]; dsimp only; rw [hd]
  have hb1 : bucket (idx.set u (um.set dk (b.delete id))) u dk = b.delete id := by
    simp [bucket_def, userDates_set, GoMap.get_set_self]
  rw [h1]
  by_cases hlen : (b.delete id).len = 0
  · -- the date bucket became empty and is removed
    have h2 : pruneDate (idx.set u (um.set dk (b.delete id))) u dk =
        (idx.set u (um.set dk (b.delete id))).set u ((um.set dk (b.delete id)).delete dk) := by
      unfold pruneDate
      rw [hb1, if_pos hlen, GoMap.get_set_self]
    rw [h2]
    have hud : userDates ((idx.set u (um.set dk (b.delete id))).set u
        ((um.set dk (b.delete id)).delete dk)) u = (um.set dk (b.delete id)).delete dk := by
      simp [userDates_set]
    have hinner : ∀ dk' b', ((um.set dk (b.delete id)).delete dk).get dk' = some b' →
        um.get dk' = some b' := by
      intro dk' b' hb'
      rw [GoMap.get_delete] at hb'
      split at hb'
      · cases hb'
      · rename_i hne'
        rwa [GoMap.get_set_ne _ _ hne'] at hb'
    unfold pruneUser
    rw [hud]
    by_cases hlen2 : ((um.set dk (b.delete id)).delete dk).len = 0
    · rw [if_pos hlen2]
      intro u' um' hu'
      rw [GoMap.get_delete] at hu'
      split at hu'
      · cases hu'
      · rename_i hne'
        rw [GoMap.get_set_ne _ _ hne', GoMap.get_set_ne _ _ hne'] at hu'
        exact hne u' um' hu'
    · rw [if_neg hlen2]
      intro u' um' hu'
      by_cases huu : u' = u
      · subst huu
        rw [GoMap.get_set_self] at hu'
        cases hu'
        exact ⟨hlen2, fun dk' b' hb' => (hne u' um hu).2 dk' b' (hinner dk' b' hb')⟩
      · rw [GoMap.get_set_ne _ _ huu, GoMap.get_set_ne _ _ huu] at hu'
        exact hne u' um' hu'
  · -- the date bucket still holds an id
    have h2 : pruneDate (idx.set u (um.set dk (b.delete id))) u dk =
        idx.set u (um.set dk (b.delete id)) := by
      unfold pruneDate
      rw [hb1, if_neg hlen]
    rw [h2]
    have hud : userDates (idx.set u (um.set dk (b.delete id))) u = um.set dk (b.delete id) := by
      simp [userDates_set]
    have hlen2 : (um.set dk (b.delete id)).len ≠ 0 :=
      GoMap.len_ne_zero_of_get _ dk _ (GoMap.get_set_self _ _ _)
    unfold pruneUser
    rw [hud, if_neg hlen2]
    intro u' um' hu'
    by_cases huu : u' = u
    · subst huu
      rw [GoMap.get_set_self] at hu'
      cases hu'
      refine ⟨hlen2, fun dk' b' hb' => ?_⟩
      by_cases hdd : dk' = dk
      · subst hdd
        rw [GoMap.get_set_self] at hb'
        cases hb'
        exact hlen
      · rw [GoMap.get_set_ne _ _ hdd] at hb'
        exact (hne u' um hu).2 dk' b' hb'
    · rw [GoMap.get_set_ne _ _ huu] at hu'
      exact hne u' um' hu'

/-- C19. `Memory.Delete` prunes empty containers at both levels: for every
store state satisfying index consistency and having no empty container in
`byUserDate`, `Delete(id)` of a stored id succeeds, after which the id is
absent from `byID` and from every bucket, `byUserDate` has no empty date
bucket and no empty user container, and every other event and every other
index entry is unchanged. -/
theorem Delete_prunes (m : Memory) (hi : m.IndexConsistent) (hne : NoEmpty m.byUserDate)
    (id : String) (x : Event) (hx : m.byID.get id = some x) :
    (m.Delete id).1 = .ok () ∧
    (m.Delete id).2.byID.get id = none ∧
    (∀ u k, (m.Delete id).2.indexed u k id = false) ∧
    NoEmpty (m.Delete id).2.byUserDate ∧
    (∀ id', id' ≠ id → (m.Delete id).2.byID.get id' = m.byID.get id') ∧
    (∀ u k id', id' ≠ id → (m.Delete id).2.indexed u k id' = m.indexed u k id') := by
  have hin : m.indexed x.UserID (dateKey x.Date) id = true :=
    (hi _ _ _).mpr ⟨x, hx, rfl, rfl⟩
  obtain ⟨um, b, hu, hd, -⟩ := indexed_get _ _ _ _ hin
  have hstate : m.Delete id = (.ok (), Memory.mk (m.byID.delete id)
      (pruneUser (pruneDate (indexDelete m.byUserDate x.UserID
        (dateKey x.Date) id) x.UserID (dateKey x.Date)) x.UserID)) := by
    unfold Memory.Delete; rw [hx]
  have hbucket : ∀ u k, bucket (m.Delete id).2.byUserDate u k =
      if u = x.UserID ∧ k = dateKey x.Date then
        (bucket m.byUserDate x.UserID (dateKey x.Date)).delete id
      else bucket m.byUserDate u k := by
    intro u k
    rw [hstate]
    simp only [bucket_pruneUser, bucket_pruneDate, bucket_indexDelete]
  rw [hstate]
  refine ⟨rfl, GoMap.get_delete_self _ _, ?_, prune_NoEmpty _ hne _ _ _ um b hu hd, ?_, ?_⟩
  · intro u k
    have hb := hbucket u k
    rw [hstate] at hb
    unfold Memory.indexed
    simp only [hb]
    split
    · rw [GoMap.get_delete_self]; rfl
    · rename_i hc
      cases hq : ((bucket m.byUserDate u k).get id).isSome with
      | false => rfl
      | true =>
        obtain ⟨e, he, h1, h2⟩ := (hi u k id).mp hq
        rw [hx] at he
        cases he
        exact absurd ⟨h1.symm, h2.symm⟩ hc
  · intro id' hid
    exact GoMap.get_delete_ne _ hid
  · intro u k id' hid
    have hb := hbucket u k
    rw [hstate] at hb
    unfold Memory.indexed
    simp only [hb]
    split
    · rename_i hc
      rw [GoMap.get_delete_ne _ hid, hc.1, hc.2]
    · rfl

/-- Deleting the only event of the sample service. -/
theorem Delete_prunes_witness :
    sampleService.repo.IndexConsistent ∧ NoEmpty sampleService.repo.byUserDate ∧
    sampleService.repo.byID.get sampleEvent.ID = some sampleEvent ∧
    (sampleService.repo.Delete sampleEvent.ID).1 = .ok () ∧
    (sampleService.repo.Delete sampleEvent.ID).2.byID.get sampleEvent.ID = none ∧
    NoEmpty (sampleService.repo.Delete sampleEvent.ID).2.byUserDate :=
  ⟨(reachable_invariant sampleSeed [sampleCreate]).2, by decide, by decide,
    (Delete_prunes sampleService.repo (reachable_invariant sampleSeed [sampleCreate]).2
      (by decide) sampleEvent.ID sampleEvent (by decide)).1,
    (Delete_prunes sampleService.repo (reachable_invariant sampleSeed [sampleCreate]).2
      (by decide) sampleEvent.ID sampleEvent (by decide)).2.1,
    (Delete_prunes sampleService.repo (reachable_invariant sampleSeed [sampleCreate]).2
      (by decide) sampleEvent.ID sampleEvent (by decide)).2.2.2.1⟩

/-- An event created from an instant in the middle of a day, at the sample data. -/
theorem dates_normalized_witness :
    sampleEvent ∈ ((NewService sampleSeed).run
      [.CreateEvent (sampleDay + 5) (sampleDay + 6) (sampleDay + 7) 1
        (sampleDay + 45296000000000) "Meet"]).repo.byID.values ∧
    (sampleEvent.Date % nsPerDay = 0 ∧ utcClock sampleEvent.Date = 0 ∧
      Truncate24h (UTC sampleEvent.Date) = sampleEvent.Date) :=
  ⟨by decide, dates_normalized sampleSeed
    [.CreateEvent (sampleDay + 5) (sampleDay + 6) (sampleDay + 7) 1
      (sampleDay + 45296000000000) "Meet"] sampleEvent (by decide)⟩

end Calendar
